import Mathlib

/-!
Verification of the sensor-deployment simulation (wildfire grid, three
placement strategies).  The Python sources are shallowly embedded:

* grids of floats become `Grid` (a total function `Nat → Nat → ℚ` plus a
  shape); float values and parameters are modelled as rationals;
* Python's `random` module is modelled by an abstract infinite stream of
  naturals (`RGen`); each primitive draw consumes one element, and every
  in-range sequence of choices is realised by some stream;
* calls that can raise (`random.sample` with too small a population,
  `random.randint` on an empty range, list indexing out of range) return
  `Except String`;
* comparisons of float square roots, `np.sqrt(dsq) ⋈ rho`, are encoded
  exactly over the squared integer distance `dsq` by cross-multiplying
  with `rho.num`/`rho.den` (see `sqrtGe`, `sqrtLt`, `sqrtLe`, `leSq`),
  so they are kernel-computable;
* `math.sqrt` used for the *value* of the genetic fitness penalty is kept
  as an abstract parameter `msqrt : Int → ℚ`; every theorem below holds
  for all choices of `msqrt`, hence covers the concrete square root.
-/

/-- Grid coordinate `(row, col)` as produced by the placement strategies. -/
abbrev Pos := Nat × Nat

/-- Squared Euclidean distance between two grid positions, an integer:
`(r1-r2)**2 + (c1-c2)**2` as it appears throughout the Python code. -/
def dsqZ (p q : Pos) : Int :=
  ((p.1 : Int) - (q.1 : Int)) * ((p.1 : Int) - (q.1 : Int)) +
    ((p.2 : Int) - (q.2 : Int)) * ((p.2 : Int) - (q.2 : Int))

/-- Exact encoding of `np.sqrt(n) >= rho` for `n ≥ 0`:
true iff `rho ≤ 0` or `rho² ≤ n`, written with `rho.num`/`rho.den`
so that it evaluates by kernel reduction. -/
def sqrtGe (n : Int) (rho : ℚ) : Bool :=
  decide (rho.num ≤ 0 ∨ rho.num * rho.num ≤ n * ((rho.den : Int) * (rho.den : Int)))

/-- Exact encoding of `np.sqrt(n) < rho` (respectively `math.sqrt`) for `n ≥ 0`. -/
def sqrtLt (n : Int) (rho : ℚ) : Bool := !(sqrtGe n rho)

/-- Exact encoding of `np.sqrt(n) <= rho` for `n ≥ 0`:
true iff `0 ≤ rho` and `n ≤ rho²`. -/
def sqrtLe (n : Int) (rho : ℚ) : Bool :=
  decide (0 ≤ rho.num ∧ n * ((rho.den : Int) * (rho.den : Int)) ≤ rho.num * rho.num)

/-- Exact encoding of `n <= rho ** 2` (the coverage test squares the radius
directly, with no square root and no sign test). -/
def leSq (n : Int) (rho : ℚ) : Bool :=
  decide (n * ((rho.den : Int) * (rho.den : Int)) ≤ rho.num * rho.num)

/-- Python `int()` truncation toward zero, on rationals. -/
def pyInt (q : ℚ) : Int := if q < 0 then -(Rat.floor (-q)) else Rat.floor q

/-- A 2-D numeric grid (fire-intensity or burn-probability field): a shape
plus a total value function. -/
structure Grid where
  rows : Nat
  cols : Nat
  val : Nat → Nat → ℚ

/-- Placeholder grid used as the default of list lookups that the code
guarantees to be in range. -/
def defaultGrid : Grid := { rows := 0, cols := 0, val := fun _ _ => 0 }

/-- All cells of a `rows × cols` grid in row-major order, as produced by the
nested `for r in range(rows): for c in range(cols)` loops. -/
def cellsList (rows cols : Nat) : List Pos :=
  (List.range rows).flatMap (fun r => (List.range cols).map (fun c => (r, c)))

/-- Abstract pseudo-random source: an infinite stream of naturals.  Each
primitive draw consumes the head.  Quantifying over all streams covers every
behaviour of Python's `random`. -/
abbrev RGen := Nat → Nat

/-- Consume one draw from the stream. -/
def rnext (g : RGen) : Nat × RGen := (g 0, fun n => g (n + 1))

/-- The all-zeros stream, used for concrete evaluations. -/
def constGen : RGen := fun _ => 0

/-- Model of `random.random() < p`: always false for `p ≤ 0`, always true for
`1 ≤ p` (the draw lies in `[0,1)`), and stream-determined otherwise.  One
draw is consumed in every case, as in Python. -/
def randomLt (p : ℚ) (g : RGen) : Bool × RGen :=
  let n := (rnext g).1
  let g1 := (rnext g).2
  (if p ≤ 0 then false else if 1 ≤ p then true else decide (n % 2 = 0), g1)

/-- Test `prev_positions and (r, c) in prev_positions`: Python treats both
`None` and the empty list as falsy, so this is exactly membership in the
previous placement when one was given. -/
def inPrev (prev : Option (List Pos)) (p : Pos) : Bool :=
  (prev.getD []).contains p

/-! ### Greedy strategy (`algorithms/greedy_deployment.py`) -/

/-- Effective burn-probability score of a candidate cell: the BP value,
reduced by 90% (`* 0.1`) if the cell was selected in the previous step. -/
def effectiveBp (bpMap : Grid) (prev : Option (List Pos)) (p : Pos) : ℚ :=
  if inPrev prev p then bpMap.val p.1 p.2 * (1 / 10) else bpMap.val p.1 p.2

/-- Comparison used by `candidates.sort(key=lambda x: x[1], reverse=True)`:
a stable descending sort on the score component. -/
def scoreDesc (a b : Pos × ℚ) : Bool := decide (b.2 ≤ a.2)

/-- Stable descending sort of scored candidates. -/
def sortCands (l : List (Pos × ℚ)) : List (Pos × ℚ) := l.mergeSort scoreDesc

/-- Separation test: the candidate is at distance `>= rho` from every already
selected sensor. -/
def farFromAll (p : Pos) (selected : List Pos) (rho : ℚ) : Bool :=
  selected.all (fun s => sqrtGe (dsqZ p s) rho)

/-- After accepting a sensor, zero the score of every remaining candidate at
distance `< rho` from it. -/
def penalizeNear (chosen : Pos) (rho : ℚ) (cands : List (Pos × ℚ)) : List (Pos × ℚ) :=
  cands.map (fun cs => if sqrtLt (dsqZ chosen cs.1) rho then (cs.1, 0) else cs)

/-- The greedy selection loop: pop the best-scored candidate, accept it when
far enough from all accepted sensors, then penalize and re-sort the rest.
`fuel` bounds the iteration count; the caller passes the initial candidate
count, which the loop (consuming one candidate per iteration) never
exceeds, so the fuel is not observable. -/
def greedyLoop (ns : Nat) (rho : ℚ) : Nat → List Pos → List (Pos × ℚ) → List Pos
  | 0, selected, _ => selected
  | fuel + 1, selected, cands =>
    if ns ≤ selected.length then selected
    else
      match cands with
      | [] => selected
      | c :: rest =>
        if farFromAll c.1 selected rho then
          greedyLoop ns rho fuel (selected ++ [c.1]) (sortCands (penalizeNear c.1 rho rest))
        else
          greedyLoop ns rho fuel selected rest

/-- `GreedyDeployment.place_sensors`: score all cells from the BP map, sort
descending, then greedily select with the separation constraint.  The fire
map is an argument of the method but is not read by it. -/
def greedyPlace (ns : Nat) (rho : ℚ) (fireMap bpMap : Grid)
    (prev : Option (List Pos)) : List Pos :=
  let _ := fireMap
  let cands := (cellsList bpMap.rows bpMap.cols).map
    (fun p => (p, effectiveBp bpMap prev p))
  let sorted := sortCands cands
  greedyLoop ns rho sorted.length [] sorted

/-! ### Epsilon-greedy strategy (`algorithms/reinforcement_learning_deployment.py`) -/

/-- Candidate value `alpha*bp + beta*fire`, halved when the cell was used in
the previous step. -/
def epsValue (alphaW betaW : ℚ) (fireMap bpMap : Grid) (prev : Option (List Pos))
    (p : Pos) : ℚ :=
  let v := alphaW * bpMap.val p.1 p.2 + betaW * fireMap.val p.1 p.2
  if inPrev prev p then v * (1 / 2) else v

/-- Model of `random.choice(seq)` on a non-empty list (the code guards the
call by a non-emptiness check). -/
def randChoice (l : List (Pos × ℚ)) (g : RGen) : (Pos × ℚ) × RGen :=
  let n := (rnext g).1
  let g1 := (rnext g).2
  (l.getD (n % l.length) ((0, 0), 0), g1)

/-- Python `max(valid_candidates, key=lambda x: x[1])`: the first candidate
attaining the maximal value (later elements replace only on strict
increase). -/
def maxByFirst : List (Pos × ℚ) → (Pos × ℚ) → Pos × ℚ
  | [], best => best
  | c :: cs, best => maxByFirst cs (if best.2 < c.2 then c else best)

/-- The epsilon-greedy selection loop.  Each iteration filters the remaining
candidates to those far enough from all selected sensors, explores or
exploits, then removes candidates too close to the chosen one.  Every
iteration appends exactly one sensor, so `fuel = ns` makes the fuel
unobservable. -/
def epsLoop (ns : Nat) (rho epsilon : ℚ) :
    Nat → List Pos → List (Pos × ℚ) → RGen → List Pos
  | 0, selected, _, _ => selected
  | fuel + 1, selected, avail, g =>
    if ns ≤ selected.length then selected
    else if avail.isEmpty then selected
    else
      let valid := avail.filter (fun cv => farFromAll cv.1 selected rho)
      if valid.isEmpty then selected
      else
        let br := randomLt epsilon g
        let pick : (Pos × ℚ) × RGen :=
          if br.1 then randChoice valid br.2
          else (maxByFirst valid.tail (valid.headD ((0, 0), 0)), br.2)
        let avail2 := avail.filter (fun cv => sqrtGe (dsqZ cv.1 pick.1.1) rho)
        epsLoop ns rho epsilon fuel (selected ++ [pick.1.1]) avail2 pick.2

/-- `ReinforcementLearningDeployment.place_sensors`. -/
def epsGreedyPlace (ns : Nat) (rho epsilon alphaW betaW : ℚ) (fireMap bpMap : Grid)
    (prev : Option (List Pos)) (g : RGen) : List Pos :=
  let avail := (cellsList bpMap.rows bpMap.cols).map
    (fun p => (p, epsValue alphaW betaW fireMap bpMap prev p))
  epsLoop ns rho epsilon ns [] avail g

/-! ### Genetic strategy (`algorithms/genetic_deployment.py`) -/

/-- A candidate solution: a list of sensor positions. -/
abbrev Cand := List Pos

/-- `random.randint(0, rows-1)`, `random.randint(0, cols-1)`: one uniform
cell; raises on an empty range (a zero-dimension grid). -/
def randomCell (rows cols : Nat) (g : RGen) : Except String (Pos × RGen) :=
  if rows = 0 then .error "empty range for randrange"
  else
    let a := (rnext g).1
    let g1 := (rnext g).2
    if cols = 0 then .error "empty range for randrange"
    else
      let b := (rnext g1).1
      let g2 := (rnext g1).2
      .ok ((a % rows, b % cols), g2)

/-- `random_candidate()`: `ns` independently uniform cells (duplicates are
not removed here). -/
def randomCandidate (rows cols : Nat) : Nat → RGen → Except String (Cand × RGen)
  | 0, g => .ok ([], g)
  | k + 1, g =>
    match randomCell rows cols g with
    | .error e => .error e
    | .ok (p, g1) =>
      match randomCandidate rows cols k g1 with
      | .error e => .error e
      | .ok (ps, g2) => .ok (p :: ps, g2)

/-- The initial population: `population_size` random candidates. -/
def initPop (rows cols ns : Nat) : Nat → RGen → Except String (List Cand × RGen)
  | 0, g => .ok ([], g)
  | k + 1, g =>
    match randomCandidate rows cols ns g with
    | .error e => .error e
    | .ok (c, g1) =>
      match initPop rows cols ns k g1 with
      | .error e => .error e
      | .ok (cs, g2) => .ok (c :: cs, g2)

/-- The unordered index pairs `i < j` of a candidate, as enumerated by the
nested penalty loops of `fitness`. -/
def pairsOf : List Pos → List (Pos × Pos)
  | [] => []
  | x :: xs => (xs.map (fun y => (x, y))) ++ pairsOf xs

/-- `fitness(candidate)`: weighted sum of BP and fire values at the sensor
positions minus, for every pair closer than the radius, the linear penalty
`rho - dist`.  `msqrt` stands for `math.sqrt` of the squared distance; the
closeness *test* is encoded exactly, only the penalty magnitude mentions
`msqrt`. -/
def fitnessGA (msqrt : Int → ℚ) (alphaW betaW rho : ℚ) (fireMap bpMap : Grid)
    (cand : Cand) : ℚ :=
  let value := (cand.map (fun p => alphaW * bpMap.val p.1 p.2 + betaW * fireMap.val p.1 p.2)).sum
  let penalty := ((pairsOf cand).map
    (fun pq => if sqrtLt (dsqZ pq.1 pq.2) rho then rho - msqrt (dsqZ pq.1 pq.2) else 0)).sum
  value - penalty

/-- `random.sample(population, 3)`: three candidates drawn without
replacement; raises when the population has fewer than three members. -/
def sample3 (pop : List Cand) (g : RGen) : Except String (List Cand × RGen) :=
  if pop.length < 3 then .error "sample larger than population or is negative"
  else
    let n1 := (rnext g).1
    let g1 := (rnext g).2
    let i1 := n1 % pop.length
    let x1 := pop.getD i1 []
    let rest1 := pop.eraseIdx i1
    let n2 := (rnext g1).1
    let g2 := (rnext g1).2
    let i2 := n2 % rest1.length
    let x2 := rest1.getD i2 []
    let rest2 := rest1.eraseIdx i2
    let n3 := (rnext g2).1
    let g3 := (rnext g2).2
    let i3 := n3 % rest2.length
    let x3 := rest2.getD i3 []
    .ok ([x1, x2, x3], g3)

/-- `tournament[tournament_fitness.index(max(tournament_fitness))]`: the
first candidate of the tournament attaining the maximal fitness. -/
def firstMaxAux (fitf : Cand → ℚ) : List Cand → Cand → Cand
  | [], best => best
  | c :: cs, best => firstMaxAux fitf cs (if fitf best < fitf c then c else best)

/-- First fitness-maximal element of a tournament (empty input unreachable:
`sample3` always returns three members). -/
def firstMax (fitf : Cand → ℚ) : List Cand → Cand
  | [] => []
  | c :: cs => firstMaxAux fitf cs c

/-- The tournament-selection loop: `popSize` tournaments of three, keeping
each winner. -/
def selectLoop (fitf : Cand → ℚ) (pop : List Cand) :
    Nat → RGen → Except String (List Cand × RGen)
  | 0, g => .ok ([], g)
  | k + 1, g =>
    match sample3 pop g with
    | .error e => .error e
    | .ok (t, g1) =>
      let w := firstMax fitf t
      match selectLoop fitf pop k g1 with
      | .error e => .error e
      | .ok (rest, g2) => .ok (w :: rest, g2)

/-- `random.randint(1, ns - 1)`: the crossover cut point; raises when the
range is empty, i.e. when `ns ≤ 1`. -/
def randCut (ns : Nat) (g : RGen) : Except String (Nat × RGen) :=
  if (ns : Int) - 1 < 1 then .error "empty range for randrange"
  else
    let n := (rnext g).1
    let g1 := (rnext g).2
    .ok (1 + n % (ns - 1), g1)

/-- The duplicate-repair scan of `crossover`: walk the child left to right;
a position already kept is replaced by a freshly drawn random cell, which is
*not* checked against the rest of the candidate. -/
def dedupeScan (rows cols : Nat) : List Pos → List Pos → RGen → Except String (List Pos × RGen)
  | [], acc, g => .ok (acc, g)
  | p :: rest, acc, g =>
    if p ∈ acc then
      match randomCell rows cols g with
      | .error e => .error e
      | .ok (q, g1) => dedupeScan rows cols rest (acc ++ [q]) g1
    else dedupeScan rows cols rest (acc ++ [p]) g

/-- The `while len(unique_child) < ns` padding loop of `crossover`.  The
Python loop is unbounded; `fuel` bounds the embedding.  In every reachable
call the scanned child already has length `ns`, so the loop body never runs
and the fuel is not observable. -/
def padLoop (rows cols ns : Nat) : Nat → List Pos → RGen → Except String (List Pos × RGen)
  | 0, acc, g =>
    if ns ≤ acc.length then .ok (acc, g) else .error "pad loop fuel exhausted"
  | fuel + 1, acc, g =>
    if ns ≤ acc.length then .ok (acc, g)
    else
      match randomCell rows cols g with
      | .error e => .error e
      | .ok (q, g1) =>
        if q ∈ acc then padLoop rows cols ns fuel acc g1
        else padLoop rows cols ns fuel (acc ++ [q]) g1

/-- `crossover(parent1, parent2)`: single-point crossover at a uniform cut in
`[1, ns-1]`, duplicate repair, padding, and truncation to `ns` genes. -/
def crossoverGA (rows cols ns : Nat) (p1 p2 : Cand) (g : RGen) :
    Except String (Cand × RGen) :=
  match randCut ns g with
  | .error e => .error e
  | .ok (point, g1) =>
    let child := p1.take point ++ p2.drop point
    match dedupeScan rows cols child [] g1 with
    | .error e => .error e
    | .ok (uc, g2) =>
      match padLoop rows cols ns ns uc g2 with
      | .error e => .error e
      | .ok (padded, g3) => .ok (padded.take ns, g3)

/-- `mutate(candidate)`: for each of the first `ns` genes, with probability
`mutation_rate` replace it by a fresh uniform cell; indexing past the end of
the candidate raises (unreachable for length-`ns` candidates). -/
def mutateGA (rows cols : Nat) (mutationRate : ℚ) :
    Nat → Cand → RGen → Except String (Cand × RGen)
  | 0, l, g => .ok (l, g)
  | _ + 1, [], _ => .error "list index out of range"
  | k + 1, x :: xs, g =>
    let br := randomLt mutationRate g
    if br.1 then
      match randomCell rows cols br.2 with
      | .error e => .error e
      | .ok (p, g2) =>
        match mutateGA rows cols mutationRate k xs g2 with
        | .error e => .error e
        | .ok (rest, g3) => .ok (p :: rest, g3)
    else
      match mutateGA rows cols mutationRate k xs br.2 with
      | .error e => .error e
      | .ok (rest, g2) => .ok (x :: rest, g2)

/-- The crossover-and-mutation loop over `range(0, popSize, 2)`: two children
per parent pair, the second parent taken at index `(i+1) % popSize`. -/
def breedLoop (rows cols ns : Nat) (mutationRate : ℚ) (newPop : List Cand)
    (popSize : Nat) : Nat → Nat → RGen → Except String (List Cand × RGen)
  | 0, _, g => .ok ([], g)
  | count + 1, i, g =>
    let parent1 := newPop.getD i []
    let parent2 := newPop.getD ((i + 1) % popSize) []
    match crossoverGA rows cols ns parent1 parent2 g with
    | .error e => .error e
    | .ok (c1, g1) =>
      match crossoverGA rows cols ns parent2 parent1 g1 with
      | .error e => .error e
      | .ok (c2, g2) =>
        match mutateGA rows cols mutationRate ns c1 g2 with
        | .error e => .error e
        | .ok (m1, g3) =>
          match mutateGA rows cols mutationRate ns c2 g3 with
          | .error e => .error e
          | .ok (m2, g4) =>
            match breedLoop rows cols ns mutationRate newPop popSize count (i + 2) g4 with
            | .error e => .error e
            | .ok (rest, g5) => .ok (m1 :: m2 :: rest, g5)

/-- Track the best-ever candidate: `if fit > best_fitness`, with the initial
best fitness `-inf` modelled by `none`. -/
def updateBest : List (Cand × ℚ) → Option Cand → Option ℚ → Option Cand × Option ℚ
  | [], best, bestF => (best, bestF)
  | (c, f) :: rest, best, bestF =>
    if (match bestF with | none => true | some b => decide (b < f)) then
      updateBest rest (some c) (some f)
    else updateBest rest best bestF

/-- One-generation-at-a-time evolution loop: fitness evaluation and best
tracking, tournament selection, breeding, generational replacement truncated
to `popSize`. -/
def genLoop (rows cols ns popSize : Nat) (mutationRate : ℚ) (fitf : Cand → ℚ) :
    Nat → List Cand → Option Cand → Option ℚ → RGen →
    Except String (Option Cand × RGen)
  | 0, _, best, _, g => .ok (best, g)
  | k + 1, pop, best, bestF, g =>
    let fits := pop.map fitf
    let bb := updateBest (pop.zip fits) best bestF
    match selectLoop fitf pop popSize g with
    | .error e => .error e
    | .ok (newPop, g1) =>
      match breedLoop rows cols ns mutationRate newPop popSize ((popSize + 1) / 2) 0 g1 with
      | .error e => .error e
      | .ok (children, g2) =>
        genLoop rows cols ns popSize mutationRate fitf k (children.take popSize) bb.1 bb.2 g2

/-- `GeneticDeployment.place_sensors`: initialize the population from the BP
map's shape, evolve for `num_generations` generations, and return the
best-ever candidate (`none` when no generation ever evaluated one). -/
def geneticPlace (msqrt : Int → ℚ) (ns : Nat) (rho : ℚ) (popSize gens : Nat)
    (mutationRate alphaW betaW : ℚ) (fireMap bpMap : Grid) (g : RGen) :
    Except String (Option Cand) :=
  let rows := bpMap.rows
  let cols := bpMap.cols
  let fitf := fitnessGA msqrt alphaW betaW rho fireMap bpMap
  match initPop rows cols ns popSize g with
  | .error e => .error e
  | .ok (pop0, g1) =>
    match genLoop rows cols ns popSize mutationRate fitf gens pop0 none none g1 with
    | .error e => .error e
    | .ok (best, _) => .ok best

/-! ### Fire data loading (`fire_data.py`) -/

/-- `FireData._load_data`: iterate the step indices, *skip* a missing file
with a warning, and append the grids that do exist; grids after a gap shift
to earlier list indices. -/
def loadFireMaps (present : Nat → Bool) (gridAt : Nat → Grid) (numTimeSteps : Nat) :
    List Grid :=
  ((List.range numTimeSteps).filter present).map gridAt

/-! ### Simulation loop (`simulation.py`) -/

/-- A placement strategy as consumed by the loop: fire map, BP map, step
index and previous placement to a placement.  The loop's claims hold for
every strategy, so the randomness of a concrete strategy is resolved before
it is passed here. -/
abbrev Strategy := Grid → Grid → Nat → Option (List Pos) → List Pos

/-- Cells of the burning-probability grid to be raised to 1.0 by
`_update_bp_map_with_sensor`: inside the integer bounding box derived from
`int(sensor_radius)` (clamped to the grid) and within Euclidean distance
`sensor_radius` of the sensor. -/
def updateBpWithSensor (rho : ℚ) (rc cc : Nat) (g : Grid) : Grid :=
  { g with
    val := fun r c =>
      if max 0 ((rc : Int) - pyInt rho) ≤ (r : Int) ∧
          (r : Int) < min (g.rows : Int) ((rc : Int) + pyInt rho + 1) ∧
          max 0 ((cc : Int) - pyInt rho) ≤ (c : Int) ∧
          (c : Int) < min (g.cols : Int) ((cc : Int) + pyInt rho + 1) ∧
          sqrtLe (dsqZ (r, c) (rc, cc)) rho = true
      then 1
      else g.val r c }

/-- Exponential decay `bp_map * bp_decay` applied for every step after the
first. -/
def decayGrid (d : ℚ) (g : Grid) : Grid := { g with val := fun r c => g.val r c * d }

/-- The sensor-reinforcement pass of `run_simulation`: every sensor standing
on a cell whose fire value reaches the detection threshold raises its
neighbourhood to 1.0. -/
def applySensors (threshold rho : ℚ) (fireMap : Grid) (ps : List Pos) (g : Grid) :
    Grid :=
  ps.foldl
    (fun acc p =>
      if threshold ≤ fireMap.val p.1 p.2 then updateBpWithSensor rho p.1 p.2 acc
      else acc)
    g

/-- The complete per-step BP field update: decay (skipped at `t = 0`)
followed by sensor reinforcement. -/
def bpUpdate (threshold rho d : ℚ) (t : Nat) (fireMap : Grid) (ps : List Pos)
    (g : Grid) : Grid :=
  applySensors threshold rho fireMap ps (if t = 0 then g else decayGrid d g)

/-- The burning cells of a fire map: value at least the detection threshold,
in row-major order. -/
def burningCells (threshold : ℚ) (fireMap : Grid) : List Pos :=
  (cellsList fireMap.rows fireMap.cols).filter
    (fun p => decide (threshold ≤ fireMap.val p.1 p.2))

/-- `_compute_coverage`: 1.0 with no burning cells, otherwise the fraction of
burning cells within squared distance `rho**2` of some sensor. -/
def computeCoverage (threshold rho : ℚ) (fireMap : Grid) (ps : List Pos) : ℚ :=
  let burning := burningCells threshold fireMap
  if burning.isEmpty then 1
  else ((burning.countP (fun bc => ps.any (fun s => leSq (dsqZ bc s) rho))) : ℚ) /
    (burning.length : ℚ)

/-- The mutable state of `WildfireSimulation` visible to the claims: the live
BP map, the BP history (`bp_maps`, whose head is the initial seed), the
placement and coverage histories, the previous placement, and — as
instrumentation — the `bp_for_placement` argument passed to the strategy at
each step. -/
structure SimState where
  bpMap : Grid
  bpMaps : List Grid
  sensorHist : List (List Pos)
  coverageHist : List ℚ
  bpUsedHist : List Grid
  prev : Option (List Pos)

/-- State after `__init__`: the seeded BP map is copied as the first entry of
`bp_maps`. -/
def initSimState (bp0 : Grid) : SimState :=
  { bpMap := bp0, bpMaps := [bp0], sensorHist := [], coverageHist := [],
    bpUsedHist := [], prev := none }

/-- One iteration of the `run_simulation` loop.  `get_fire_map(t)` raises an
index error past the end of the loaded list.  For placement the code uses the
live map at `t = 0` and the history entry `bp_maps[t-1]` afterwards (always
in range, hence the defaulted lookup). -/
def simStep (threshold rho d : ℚ) (fireMaps : List Grid) (place : Strategy)
    (t : Nat) (st : SimState) : Except String SimState :=
  match fireMaps.get? t with
  | none => .error "list index out of range"
  | some fireMap =>
    let bpFor := if t = 0 then st.bpMap else st.bpMaps.getD (t - 1) defaultGrid
    let ps := place fireMap bpFor t st.prev
    let newBp := bpUpdate threshold rho d t fireMap ps st.bpMap
    let cov := computeCoverage threshold rho fireMap ps
    .ok { bpMap := newBp,
          bpMaps := st.bpMaps ++ [newBp],
          sensorHist := st.sensorHist ++ [ps],
          coverageHist := st.coverageHist ++ [cov],
          bpUsedHist := st.bpUsedHist ++ [bpFor],
          prev := some ps }

/-- Run steps `t, t+1, ...` while `fuel` remains; an exception aborts the
loop but, as in Python, the state mutated by the completed steps persists. -/
def runAux (threshold rho d : ℚ) (fireMaps : List Grid) (place : Strategy) :
    Nat → Nat → SimState → SimState × Option String
  | 0, _, st => (st, none)
  | fuel + 1, t, st =>
    match simStep threshold rho d fireMaps place t st with
    | .error e => (st, some e)
    | .ok st2 => runAux threshold rho d fireMaps place fuel (t + 1) st2

/-- `run_simulation`: the full loop over `num_time_steps` steps. -/
def runSimulation (threshold rho d : ℚ) (fireMaps : List Grid) (place : Strategy)
    (numTimeSteps : Nat) (bp0 : Grid) : SimState × Option String :=
  runAux threshold rho d fireMaps place numTimeSteps 0 (initSimState bp0)

/-! ### Algorithm dispatch (`main.py`) -/

/-- The deployment object built by `main` from the configuration. -/
inductive Deployment where
  | greedy (numSensors : Nat) (sensorRadius : ℚ)
  | reinforcement (numSensors : Nat) (sensorRadius : ℚ) (epsilon alphaW betaW : ℚ)
  | genetic (numSensors : Nat) (sensorRadius : ℚ) (populationSize numGenerations : Nat)
      (mutationRate alphaW betaW : ℚ)
deriving DecidableEq

/-- Python `str.lower()`. -/
def strLower (s : String) : String := String.mk (s.data.map Char.toLower)

/-- The strategy dispatch of `main`: three recognized names (compared in
lower case), everything else a `ValueError`.  No parameter validation is
performed. -/
def selectAlgorithm (algorithmChoice : String) (ns : Nat) (rho : ℚ)
    (epsilon alphaRL betaRL : ℚ) (popSize gens : Nat) (mutationRate alphaGA betaGA : ℚ) :
    Except String Deployment :=
  if strLower algorithmChoice = "greedy" then .ok (.greedy ns rho)
  else if strLower algorithmChoice = "reinforcementlearning" then
    .ok (.reinforcement ns rho epsilon alphaRL betaRL)
  else if strLower algorithmChoice = "genetic" then
    .ok (.genetic ns rho popSize gens mutationRate alphaGA betaGA)
  else .error ("Unknown algorithm specified: " ++ algorithmChoice)

/-! ### Auxiliary predicates and concrete instances used by the claims -/

deriving instance DecidableEq for Except

/-- A position lies inside a `rows × cols` grid. -/
def inRangePos (rows cols : Nat) (p : Pos) : Prop := p.1 < rows ∧ p.2 < cols

/-- Candidate well-formedness for the genetic strategy: exactly `ns` genes,
all inside the grid. -/
def candOk (rows cols ns : Nat) (c : Cand) : Prop :=
  c.length = ns ∧ ∀ p ∈ c, inRangePos rows cols p

/-- A 1×1 grid with constant value 0. -/
def grid11 : Grid := { rows := 1, cols := 1, val := fun _ _ => 0 }

/-- A 2×2 grid with constant value 0. -/
def grid22 : Grid := { rows := 2, cols := 2, val := fun _ _ => 0 }

/-- A 1×1 fire map whose only cell burns with intensity 1. -/
def fireHot : Grid := { rows := 1, cols := 1, val := fun _ _ => 1 }

/-- A 1×1 fire map whose only cell is cold. -/
def fireCold : Grid := { rows := 1, cols := 1, val := fun _ _ => 0 }

/-- A 1×1 initial burn-probability seed with value 5, distinguishable from
the reinforced value 1. -/
def bpSeed : Grid := { rows := 1, cols := 1, val := fun _ _ => 5 }

/-- A strategy that deploys one sensor at the origin at step 0 and nothing
afterwards. -/
def placeOnce : Strategy := fun _ _ t _ => if t = 0 then [(0, 0)] else []

/-- The fire-field source of the missing-file scenario: the grid for step `t`
carries the constant value `t`, so a strategy can observe which grid it was
given. -/
def gridsAt : Nat → Grid := fun t => { rows := 1, cols := 1, val := fun _ _ => (t : ℚ) }

/-- A strategy that deploys a sensor exactly when the fire value it is shown
at the origin is at least 1 — used to witness which grid reached step 0. -/
def placeProbe : Strategy := fun fm _ _ _ => if (1 : ℚ) ≤ fm.val 0 0 then [(0, 0)] else []

/-! ### Distance-encoding lemmas -/

theorem dsqZ_nonneg (p q : Pos) : 0 ≤ dsqZ p q :=
  add_nonneg (mul_self_nonneg _) (mul_self_nonneg _)

theorem dsqZ_comm (p q : Pos) : dsqZ p q = dsqZ q p := by
  unfold dsqZ; ring

theorem dsqZ_eq_zero {p q : Pos} (h : dsqZ p q = 0) : p = q := by
  unfold dsqZ at h
  have s1 := mul_self_nonneg ((p.1 : Int) - (q.1 : Int))
  have s2 := mul_self_nonneg ((p.2 : Int) - (q.2 : Int))
  have h1 : (p.1 : Int) = (q.1 : Int) := by nlinarith
  have h2 : (p.2 : Int) = (q.2 : Int) := by nlinarith
  have e1 : p.1 = q.1 := by exact_mod_cast h1
  have e2 : p.2 = q.2 := by exact_mod_cast h2
  exact Prod.ext e1 e2

theorem int_le_ratSq_iff (n : Int) (rho : ℚ) :
    n * ((rho.den : Int) * (rho.den : Int)) ≤ rho.num * rho.num ↔ (n : ℚ) ≤ rho ^ 2 := by
  have hden : (0 : ℚ) < ((rho.den : ℚ) * (rho.den : ℚ)) := by
    have : (0 : ℚ) < (rho.den : ℚ) := by exact_mod_cast rho.den_pos
    positivity
  have h2 : rho ^ 2 = ((rho.num : ℚ) * (rho.num : ℚ)) / ((rho.den : ℚ) * (rho.den : ℚ)) := by
    conv_lhs => rw [← Rat.num_div_den rho]
    ring
  rw [h2, le_div_iff hden]
  constructor
  · intro h
    calc (n : ℚ) * ((rho.den : ℚ) * (rho.den : ℚ))
        = ((n * ((rho.den : Int) * (rho.den : Int)) : Int) : ℚ) := by push_cast; ring
      _ ≤ ((rho.num * rho.num : Int) : ℚ) := by exact_mod_cast h
      _ = (rho.num : ℚ) * (rho.num : ℚ) := by push_cast; ring
  · intro h
    have hq : ((n * ((rho.den : Int) * (rho.den : Int)) : Int) : ℚ) ≤
        ((rho.num * rho.num : Int) : ℚ) := by
      calc ((n * ((rho.den : Int) * (rho.den : Int)) : Int) : ℚ)
          = (n : ℚ) * ((rho.den : ℚ) * (rho.den : ℚ)) := by push_cast; ring
        _ ≤ (rho.num : ℚ) * (rho.num : ℚ) := h
        _ = ((rho.num * rho.num : Int) : ℚ) := by push_cast; ring
    exact_mod_cast hq

theorem ratSq_le_int_iff (n : Int) (rho : ℚ) :
    rho.num * rho.num ≤ n * ((rho.den : Int) * (rho.den : Int)) ↔ rho ^ 2 ≤ (n : ℚ) := by
  have hden : (0 : ℚ) < ((rho.den : ℚ) * (rho.den : ℚ)) := by
    have : (0 : ℚ) < (rho.den : ℚ) := by exact_mod_cast rho.den_pos
    positivity
  have h2 : rho ^ 2 = ((rho.num : ℚ) * (rho.num : ℚ)) / ((rho.den : ℚ) * (rho.den : ℚ)) := by
    conv_lhs => rw [← Rat.num_div_den rho]
    ring
  rw [h2, div_le_iff hden]
  constructor
  · intro h
    calc (rho.num : ℚ) * (rho.num : ℚ)
        = ((rho.num * rho.num : Int) : ℚ) := by push_cast; ring
      _ ≤ ((n * ((rho.den : Int) * (rho.den : Int)) : Int) : ℚ) := by exact_mod_cast h
      _ = (n : ℚ) * ((rho.den : ℚ) * (rho.den : ℚ)) := by push_cast; ring
  · intro h
    have hq : ((rho.num * rho.num : Int) : ℚ) ≤
        ((n * ((rho.den : Int) * (rho.den : Int)) : Int) : ℚ) := by
      calc ((rho.num * rho.num : Int) : ℚ)
          = (rho.num : ℚ) * (rho.num : ℚ) := by push_cast; ring
        _ ≤ (n : ℚ) * ((rho.den : ℚ) * (rho.den : ℚ)) := h
        _ = ((n * ((rho.den : Int) * (rho.den : Int)) : Int) : ℚ) := by push_cast; ring
    exact_mod_cast hq

theorem sqrtGe_true_iff {n : Int} {rho : ℚ} (hn : 0 ≤ n) (h : 0 ≤ rho) :
    sqrtGe n rho = true ↔ rho ^ 2 ≤ (n : ℚ) := by
  unfold sqrtGe
  rw [decide_eq_true_eq]
  constructor
  · rintro (h1 | h1)
    · have hz : rho.num = 0 := le_antisymm h1 (Rat.num_nonneg.mpr h)
      have hrho : rho = 0 := Rat.num_eq_zero.mp hz
      subst hrho
      simpa using (by exact_mod_cast hn : (0 : ℚ) ≤ (n : ℚ))
    · exact (ratSq_le_int_iff n rho).mp h1
  · intro h1
    exact Or.inr ((ratSq_le_int_iff n rho).mpr h1)

theorem sqrtGe_self_false {rho : ℚ} (h : 0 < rho) (p : Pos) : sqrtGe (dsqZ p p) rho = false := by
  have hz : dsqZ p p = 0 := by unfold dsqZ; ring
  rw [hz]
  unfold sqrtGe
  have hnum : 0 < rho.num := Rat.num_pos.mpr h
  simp only [decide_eq_false_iff_not]
  rintro (h1 | h1)
  · omega
  · nlinarith

theorem sqrtLe_true_iff {n : Int} {rho : ℚ} :
    sqrtLe n rho = true ↔ 0 ≤ rho ∧ (n : ℚ) ≤ rho ^ 2 := by
  unfold sqrtLe
  rw [decide_eq_true_eq, Rat.num_nonneg, int_le_ratSq_iff]

theorem leSq_true_iff {n : Int} {rho : ℚ} :
    leSq n rho = true ↔ (n : ℚ) ≤ rho ^ 2 := by
  unfold leSq
  rw [decide_eq_true_eq, int_le_ratSq_iff]

theorem pyInt_of_nonneg {rho : ℚ} (h : 0 ≤ rho) : pyInt rho = ⌊rho⌋ := by
  unfold pyInt
  rw [if_neg (not_lt.mpr h), Rat.floor_def', Rat.floor_def]

theorem mem_cellsList {rows cols : Nat} {p : Pos} :
    p ∈ cellsList rows cols ↔ p.1 < rows ∧ p.2 < cols := by
  unfold cellsList
  simp only [List.mem_flatMap, List.mem_map, List.mem_range]
  constructor
  · rintro ⟨r, hr, c, hc, rfl⟩
    exact ⟨hr, hc⟩
  · rintro ⟨h1, h2⟩
    exact ⟨p.1, h1, p.2, h2, rfl⟩

theorem getD_mem {α : Type} : ∀ {l : List α} {i : Nat} {d : α}, i < l.length → l.getD i d ∈ l
  | [], i, d, h => by simp at h
  | x :: xs, 0, d, _ => by simp [List.getD]
  | x :: xs, i + 1, d, h => by
    rw [List.getD_cons_succ]
    exact List.mem_cons_of_mem _ (getD_mem (by simpa using h))

/-! ### Greedy strategy lemmas -/

theorem penalizeNear_fst (chosen : Pos) (rho : ℚ) :
    ∀ l : List (Pos × ℚ), (penalizeNear chosen rho l).map Prod.fst = l.map Prod.fst
  | [] => rfl
  | cs :: l => by
    have ih := penalizeNear_fst chosen rho l
    unfold penalizeNear at ih ⊢
    simp only [List.map_cons]
    rw [ih]
    by_cases h : sqrtLt (dsqZ chosen cs.1) rho = true
    · rw [if_pos h]
    · rw [if_neg h]

theorem mem_sortCands {l : List (Pos × ℚ)} {x : Pos × ℚ} :
    x ∈ sortCands l ↔ x ∈ l :=
  (List.mergeSort_perm l scoreDesc).mem_iff

theorem farFromAll_spec {p : Pos} {sel : List Pos} {rho : ℚ}
    (h : farFromAll p sel rho = true) :
    ∀ s ∈ sel, sqrtGe (dsqZ p s) rho = true := by
  unfold farFromAll at h
  exact List.all_eq_true.mp h

theorem greedyLoop_mem (ns : Nat) (rho : ℚ) :
    ∀ (fuel : Nat) (sel : List Pos) (cands : List (Pos × ℚ)) (x : Pos),
      x ∈ greedyLoop ns rho fuel sel cands → x ∈ sel ∨ x ∈ cands.map Prod.fst
  | 0, sel, cands, x, h => Or.inl h
  | fuel + 1, sel, [], x, h => by
    rw [greedyLoop] at h
    split at h
    · exact Or.inl h
    · exact Or.inl h
  | fuel + 1, sel, c :: rest, x, h => by
    rw [greedyLoop] at h
    split at h
    · exact Or.inl h
    · by_cases hfar : farFromAll c.1 sel rho = true
      · rw [if_pos hfar] at h
        rcases greedyLoop_mem ns rho fuel _ _ x h with h1 | h1
        · rcases List.mem_append.mp h1 with h2 | h2
          · exact Or.inl h2
          · refine Or.inr ?_
            simp only [List.mem_singleton] at h2
            subst h2
            exact List.mem_map.mpr ⟨c, List.mem_cons_self c rest, rfl⟩
        · refine Or.inr ?_
          rcases List.mem_map.mp h1 with ⟨y, hy, rfl⟩
          rw [mem_sortCands] at hy
          have : y.1 ∈ rest.map Prod.fst := by
            rw [← penalizeNear_fst c.1 rho rest]
            exact List.mem_map.mpr ⟨y, hy, rfl⟩
          rcases List.mem_map.mp this with ⟨z, hz, hzz⟩
          exact List.mem_map.mpr ⟨z, List.mem_cons_of_mem _ hz, hzz⟩
      · rw [if_neg hfar] at h
        rcases greedyLoop_mem ns rho fuel _ _ x h with h1 | h1
        · exact Or.inl h1
        · rcases List.mem_map.mp h1 with ⟨z, hz, hzz⟩
          exact Or.inr (List.mem_map.mpr ⟨z, List.mem_cons_of_mem _ hz, hzz⟩)

theorem greedyLoop_length (ns : Nat) (rho : ℚ) :
    ∀ (fuel : Nat) (sel : List Pos) (cands : List (Pos × ℚ)),
      sel.length ≤ ns → (greedyLoop ns rho fuel sel cands).length ≤ ns
  | 0, sel, cands, h => h
  | fuel + 1, sel, [], h => by
    rw [greedyLoop]
    split
    · exact h
    · exact h
  | fuel + 1, sel, c :: rest, h => by
    rw [greedyLoop]
    split
    · exact h
    · rename_i hlen
      by_cases hfar : farFromAll c.1 sel rho = true
      · rw [if_pos hfar]
        refine greedyLoop_length ns rho fuel _ _ ?_
        rw [List.length_append, List.length_singleton]
        omega
      · rw [if_neg hfar]
        exact greedyLoop_length ns rho fuel _ _ h

theorem greedyLoop_pairwise (ns : Nat) (rho : ℚ) :
    ∀ (fuel : Nat) (sel : List Pos) (cands : List (Pos × ℚ)),
      sel.Pairwise (fun p q => sqrtGe (dsqZ p q) rho = true) →
      (greedyLoop ns rho fuel sel cands).Pairwise (fun p q => sqrtGe (dsqZ p q) rho = true)
  | 0, sel, cands, h => h
  | fuel + 1, sel, [], h => by
    rw [greedyLoop]
    split
    · exact h
    · exact h
  | fuel + 1, sel, c :: rest, h => by
    rw [greedyLoop]
    split
    · exact h
    · by_cases hfar : farFromAll c.1 sel rho = true
      · rw [if_pos hfar]
        refine greedyLoop_pairwise ns rho fuel _ _ ?_
        rw [List.pairwise_append]
        refine ⟨h, List.pairwise_singleton _ _, ?_⟩
        intro a ha b hb
        simp only [List.mem_singleton] at hb
        subst hb
        rw [dsqZ_comm]
        exact farFromAll_spec hfar a ha
      · rw [if_neg hfar]
        exact greedyLoop_pairwise ns rho fuel _ _ h

theorem greedyPlace_mem {ns : Nat} {rho : ℚ} {fireMap bpMap : Grid}
    {prev : Option (List Pos)} {x : Pos} (h : x ∈ greedyPlace ns rho fireMap bpMap prev) :
    inRangePos bpMap.rows bpMap.cols x := by
  unfold greedyPlace at h
  rcases greedyLoop_mem ns rho _ [] _ x h with h1 | h1
  · simp at h1
  · rcases List.mem_map.mp h1 with ⟨y, hy, rfl⟩
    rw [mem_sortCands] at hy
    rcases List.mem_map.mp hy with ⟨p, hp, rfl⟩
    exact mem_cellsList.mp hp

theorem greedyPlace_length (ns : Nat) (rho : ℚ) (fireMap bpMap : Grid)
    (prev : Option (List Pos)) : (greedyPlace ns rho fireMap bpMap prev).length ≤ ns := by
  unfold greedyPlace
  exact greedyLoop_length ns rho _ [] _ (by simp)

theorem greedyPlace_pairwise (ns : Nat) (rho : ℚ) (fireMap bpMap : Grid)
    (prev : Option (List Pos)) :
    (greedyPlace ns rho fireMap bpMap prev).Pairwise
      (fun p q => sqrtGe (dsqZ p q) rho = true) := by
  unfold greedyPlace
  exact greedyLoop_pairwise ns rho _ [] _ (List.Pairwise.nil)

/-! ### Epsilon-greedy strategy lemmas -/

theorem maxByFirst_mem : ∀ (l : List (Pos × ℚ)) (best : Pos × ℚ),
    maxByFirst l best = best ∨ maxByFirst l best ∈ l
  | [], best => Or.inl rfl
  | c :: cs, best => by
    rw [maxByFirst]
    rcases maxByFirst_mem cs (if best.2 < c.2 then c else best) with h | h
    · rw [h]
      by_cases hc : best.2 < c.2
      · rw [if_pos hc]; exact Or.inr (List.mem_cons_self c cs)
      · rw [if_neg hc]; exact Or.inl rfl
    · exact Or.inr (List.mem_cons_of_mem _ h)

theorem randChoice_mem {l : List (Pos × ℚ)} (h : l ≠ []) (g : RGen) :
    (randChoice l g).1 ∈ l := by
  unfold randChoice
  refine getD_mem (Nat.mod_lt _ ?_)
  exact List.length_pos.mpr h

theorem epsPick_mem (valid : List (Pos × ℚ)) (hne : valid ≠ []) (b : Bool) (g : RGen) :
    (if b then randChoice valid g
     else (maxByFirst valid.tail (valid.headD ((0, 0), 0)), g)).1 ∈ valid := by
  cases b with
  | true =>
    rw [if_pos rfl]
    exact randChoice_mem hne g
  | false =>
    rw [if_neg (by simp)]
    match valid with
    | [] => exact absurd rfl hne
    | v :: vs =>
      simp only [List.tail_cons, List.headD_cons]
      rcases maxByFirst_mem vs v with h1 | h1
      · rw [h1]; exact List.mem_cons_self v vs
      · exact List.mem_cons_of_mem _ h1

theorem epsLoop_mem (ns : Nat) (rho epsilon : ℚ) :
    ∀ (fuel : Nat) (sel : List Pos) (avail : List (Pos × ℚ)) (g : RGen) (x : Pos),
      x ∈ epsLoop ns rho epsilon fuel sel avail g → x ∈ sel ∨ x ∈ avail.map Prod.fst
  | 0, sel, avail, g, x, h => Or.inl h
  | fuel + 1, sel, avail, g, x, h => by
    simp only [epsLoop] at h
    by_cases h1 : ns ≤ sel.length
    · rw [if_pos h1] at h; exact Or.inl h
    rw [if_neg h1] at h
    by_cases h2 : avail.isEmpty = true
    · rw [if_pos h2] at h; exact Or.inl h
    rw [if_neg h2] at h
    by_cases h3 : (avail.filter (fun cv => farFromAll cv.1 sel rho)).isEmpty = true
    · rw [if_pos h3] at h; exact Or.inl h
    rw [if_neg h3] at h
    rcases epsLoop_mem ns rho epsilon fuel _ _ _ x h with hm | hm
    · rcases List.mem_append.mp hm with hs | hs
      · exact Or.inl hs
      · simp only [List.mem_singleton] at hs
        subst hs
        have hpm := epsPick_mem (avail.filter (fun cv => farFromAll cv.1 sel rho))
          (by simpa [List.isEmpty_iff] using h3) ((randomLt epsilon g).1)
          ((randomLt epsilon g).2)
        exact Or.inr (List.mem_map.mpr ⟨_, List.mem_of_mem_filter hpm, rfl⟩)
    · rcases List.mem_map.mp hm with ⟨y, hy, rfl⟩
      exact Or.inr (List.mem_map.mpr ⟨y, List.mem_of_mem_filter hy, rfl⟩)

theorem epsLoop_length (ns : Nat) (rho epsilon : ℚ) :
    ∀ (fuel : Nat) (sel : List Pos) (avail : List (Pos × ℚ)) (g : RGen),
      sel.length ≤ ns → (epsLoop ns rho epsilon fuel sel avail g).length ≤ ns
  | 0, sel, avail, g, h => h
  | fuel + 1, sel, avail, g, h => by
    simp only [epsLoop]
    by_cases h1 : ns ≤ sel.length
    · rw [if_pos h1]; exact h
    rw [if_neg h1]
    by_cases h2 : avail.isEmpty = true
    · rw [if_pos h2]; exact h
    rw [if_neg h2]
    by_cases h3 : (avail.filter (fun cv => farFromAll cv.1 sel rho)).isEmpty = true
    · rw [if_pos h3]; exact h
    rw [if_neg h3]
    refine epsLoop_length ns rho epsilon fuel _ _ _ ?_
    rw [List.length_append, List.length_singleton]
    omega

theorem epsLoop_pairwise (ns : Nat) (rho epsilon : ℚ) :
    ∀ (fuel : Nat) (sel : List Pos) (avail : List (Pos × ℚ)) (g : RGen),
      sel.Pairwise (fun p q => sqrtGe (dsqZ p q) rho = true) →
      (epsLoop ns rho epsilon fuel sel avail g).Pairwise
        (fun p q => sqrtGe (dsqZ p q) rho = true)
  | 0, sel, avail, g, h => h
  | fuel + 1, sel, avail, g, h => by
    simp only [epsLoop]
    by_cases h1 : ns ≤ sel.length
    · rw [if_pos h1]; exact h
    rw [if_neg h1]
    by_cases h2 : avail.isEmpty = true
    · rw [if_pos h2]; exact h
    rw [if_neg h2]
    by_cases h3 : (avail.filter (fun cv => farFromAll cv.1 sel rho)).isEmpty = true
    · rw [if_pos h3]; exact h
    rw [if_neg h3]
    refine epsLoop_pairwise ns rho epsilon fuel _ _ _ ?_
    rw [List.pairwise_append]
    refine ⟨h, List.pairwise_singleton _ _, ?_⟩
    intro a ha b hb
    simp only [List.mem_singleton] at hb
    subst hb
    have hpm := epsPick_mem (avail.filter (fun cv => farFromAll cv.1 sel rho))
      (by simpa [List.isEmpty_iff] using h3) ((randomLt epsilon g).1)
      ((randomLt epsilon g).2)
    have hfar := (List.mem_filter.mp hpm).2
    rw [dsqZ_comm]
    exact farFromAll_spec hfar a ha

theorem epsGreedyPlace_mem {ns : Nat} {rho epsilon alphaW betaW : ℚ}
    {fireMap bpMap : Grid} {prev : Option (List Pos)} {g : RGen} {x : Pos}
    (h : x ∈ epsGreedyPlace ns rho epsilon alphaW betaW fireMap bpMap prev g) :
    inRangePos bpMap.rows bpMap.cols x := by
  unfold epsGreedyPlace at h
  rcases epsLoop_mem ns rho epsilon ns [] _ g x h with h1 | h1
  · simp at h1
  · rcases List.mem_map.mp h1 with ⟨y, hy, rfl⟩
    rcases List.mem_map.mp hy with ⟨p, hp, rfl⟩
    exact mem_cellsList.mp hp

theorem epsGreedyPlace_length (ns : Nat) (rho epsilon alphaW betaW : ℚ)
    (fireMap bpMap : Grid) (prev : Option (List Pos)) (g : RGen) :
    (epsGreedyPlace ns rho epsilon alphaW betaW fireMap bpMap prev g).length ≤ ns := by
  unfold epsGreedyPlace
  exact epsLoop_length ns rho epsilon ns [] _ g (by simp)

theorem epsGreedyPlace_pairwise (ns : Nat) (rho epsilon alphaW betaW : ℚ)
    (fireMap bpMap : Grid) (prev : Option (List Pos)) (g : RGen) :
    (epsGreedyPlace ns rho epsilon alphaW betaW fireMap bpMap prev g).Pairwise
      (fun p q => sqrtGe (dsqZ p q) rho = true) := by
  unfold epsGreedyPlace
  exact epsLoop_pairwise ns rho epsilon ns [] _ g List.Pairwise.nil

/-! ### BP field update lemmas -/

theorem updateBpWithSensor_keeps {rho : ℚ} {a b r c : Nat} {g : Grid}
    (h : g.val r c = 1) : (updateBpWithSensor rho a b g).val r c = 1 := by
  unfold updateBpWithSensor
  dsimp only
  split
  · rfl
  · exact h

theorem updateBpWithSensor_rows (rho : ℚ) (a b : Nat) (g : Grid) :
    (updateBpWithSensor rho a b g).rows = g.rows := rfl

theorem updateBpWithSensor_cols (rho : ℚ) (a b : Nat) (g : Grid) :
    (updateBpWithSensor rho a b g).cols = g.cols := rfl

theorem updateBpWithSensor_sets {rho : ℚ} (hrho : 0 ≤ rho) {rc cc r c : Nat} {g : Grid}
    (hr : r < g.rows) (hc : c < g.cols)
    (hd : ((dsqZ (r, c) (rc, cc) : Int) : ℚ) ≤ rho ^ 2) :
    (updateBpWithSensor rho rc cc g).val r c = 1 := by
  have hfloor : pyInt rho = ⌊rho⌋ := pyInt_of_nonneg hrho
  have hdr2 : (((r : Int) - (rc : Int)) : ℚ) ^ 2 ≤ rho ^ 2 := by
    have hsplit : ((dsqZ (r, c) (rc, cc) : Int) : ℚ) =
        (((r : Int) - (rc : Int)) : ℚ) ^ 2 + (((c : Int) - (cc : Int)) : ℚ) ^ 2 := by
      unfold dsqZ
      push_cast
      ring
    nlinarith [sq_nonneg ((((c : Int) - (cc : Int)) : ℚ))]
  have hdc2 : (((c : Int) - (cc : Int)) : ℚ) ^ 2 ≤ rho ^ 2 := by
    have hsplit : ((dsqZ (r, c) (rc, cc) : Int) : ℚ) =
        (((r : Int) - (rc : Int)) : ℚ) ^ 2 + (((c : Int) - (cc : Int)) : ℚ) ^ 2 := by
      unfold dsqZ
      push_cast
      ring
    nlinarith [sq_nonneg ((((r : Int) - (rc : Int)) : ℚ))]
  obtain ⟨hdr_lo, hdr_hi⟩ := abs_le_of_sq_le_sq' hdr2 hrho
  obtain ⟨hdc_lo, hdc_hi⟩ := abs_le_of_sq_le_sq' hdc2 hrho
  have hr1 : (r : Int) - (rc : Int) ≤ ⌊rho⌋ := Int.le_floor.mpr (by push_cast at hdr_hi ⊢; linarith)
  have hr2 : (rc : Int) - (r : Int) ≤ ⌊rho⌋ := Int.le_floor.mpr (by push_cast at hdr_lo ⊢; linarith)
  have hc1 : (c : Int) - (cc : Int) ≤ ⌊rho⌋ := Int.le_floor.mpr (by push_cast at hdc_hi ⊢; linarith)
  have hc2 : (cc : Int) - (c : Int) ≤ ⌊rho⌋ := Int.le_floor.mpr (by push_cast at hdc_lo ⊢; linarith)
  have hrr : (r : Int) < (g.rows : Int) := by exact_mod_cast hr
  have hcc2 : (c : Int) < (g.cols : Int) := by exact_mod_cast hc
  unfold updateBpWithSensor
  dsimp only
  rw [if_pos]
  refine ⟨?_, ?_, ?_, ?_, ?_⟩
  · rw [hfloor]; omega
  · rw [hfloor]; omega
  · rw [hfloor]; omega
  · rw [hfloor]; omega
  · exact sqrtLe_true_iff.mpr ⟨hrho, hd⟩

theorem applySensors_keeps {threshold rho : ℚ} {fireMap : Grid} :
    ∀ (ps : List Pos) (g : Grid) {r c : Nat}, g.val r c = 1 →
      (applySensors threshold rho fireMap ps g).val r c = 1
  | [], g, r, c, h => h
  | p :: ps, g, r, c, h => by
    unfold applySensors
    simp only [List.foldl_cons]
    by_cases ht : threshold ≤ fireMap.val p.1 p.2
    · rw [if_pos ht]
      exact applySensors_keeps ps _ (updateBpWithSensor_keeps h)
    · rw [if_neg ht]
      exact applySensors_keeps ps g h

theorem applySensors_rows {threshold rho : ℚ} {fireMap : Grid} :
    ∀ (ps : List Pos) (g : Grid), (applySensors threshold rho fireMap ps g).rows = g.rows
  | [], g => rfl
  | p :: ps, g => by
    unfold applySensors
    simp only [List.foldl_cons]
    by_cases ht : threshold ≤ fireMap.val p.1 p.2
    · rw [if_pos ht]
      exact applySensors_rows ps _
    · rw [if_neg ht]
      exact applySensors_rows ps g

theorem applySensors_cols {threshold rho : ℚ} {fireMap : Grid} :
    ∀ (ps : List Pos) (g : Grid), (applySensors threshold rho fireMap ps g).cols = g.cols
  | [], g => rfl
  | p :: ps, g => by
    unfold applySensors
    simp only [List.foldl_cons]
    by_cases ht : threshold ≤ fireMap.val p.1 p.2
    · rw [if_pos ht]
      exact applySensors_cols ps _
    · rw [if_neg ht]
      exact applySensors_cols ps g

theorem applySensors_sets {threshold rho : ℚ} {fireMap : Grid} {ps : List Pos}
    {p : Pos} (hmem : p ∈ ps) (hfire : threshold ≤ fireMap.val p.1 p.2)
    (hrho : 0 ≤ rho) {g : Grid} {r c : Nat} (hr : r < g.rows) (hc : c < g.cols)
    (hd : ((dsqZ (r, c) p : Int) : ℚ) ≤ rho ^ 2) :
    (applySensors threshold rho fireMap ps g).val r c = 1 := by
  obtain ⟨s, t, rfl⟩ := List.append_of_mem hmem
  unfold applySensors
  rw [List.foldl_append, List.foldl_cons]
  have hrows : (applySensors threshold rho fireMap s g).rows = g.rows := applySensors_rows s g
  have hcols : (applySensors threshold rho fireMap s g).cols = g.cols := applySensors_cols s g
  unfold applySensors at hrows hcols
  rw [if_pos hfire]
  refine applySensors_keeps t _ ?_
  refine updateBpWithSensor_sets hrho ?_ ?_ ?_
  · rw [hrows]; exact hr
  · rw [hcols]; exact hc
  · cases p
    exact hd

theorem bpUpdate_empty (threshold rho d : ℚ) (t : Nat) (fireMap : Grid) (g : Grid)
    (r c : Nat) :
    (bpUpdate threshold rho d t fireMap [] g).val r c =
      if t = 0 then g.val r c else d * g.val r c := by
  unfold bpUpdate applySensors
  simp only [List.foldl_nil]
  by_cases ht : t = 0
  · rw [if_pos ht, if_pos ht]
  · rw [if_neg ht, if_neg ht]
    unfold decayGrid
    exact mul_comm _ d

theorem bpUpdate_sets {threshold rho d : ℚ} {t : Nat} {fireMap : Grid} {ps : List Pos}
    {p : Pos} (hmem : p ∈ ps) (hfire : threshold ≤ fireMap.val p.1 p.2)
    (hrho : 0 ≤ rho) {g : Grid} {r c : Nat} (hr : r < g.rows) (hc : c < g.cols)
    (hd : ((dsqZ (r, c) p : Int) : ℚ) ≤ rho ^ 2) :
    (bpUpdate threshold rho d t fireMap ps g).val r c = 1 := by
  unfold bpUpdate
  by_cases ht : t = 0
  · rw [if_pos ht]
    exact applySensors_sets hmem hfire hrho hr hc hd
  · rw [if_neg ht]
    exact applySensors_sets hmem hfire hrho (g := decayGrid d g) hr hc hd

/-! ### Simulation loop lemmas -/

theorem simStep_none {threshold rho d : ℚ} {fireMaps : List Grid} {place : Strategy}
    {t : Nat} {st : SimState} (h : fireMaps.length ≤ t) :
    simStep threshold rho d fireMaps place t st = .error "list index out of range" := by
  unfold simStep
  rw [List.get?_eq_getElem?, List.getElem?_eq_none h]

theorem simStep_isOk {threshold rho d : ℚ} {fireMaps : List Grid} {place : Strategy}
    {t : Nat} {st : SimState} (h : t < fireMaps.length) :
    ∃ st2, simStep threshold rho d fireMaps place t st = .ok st2 := by
  unfold simStep
  rw [List.get?_eq_getElem?, List.getElem?_eq_getElem h]
  exact ⟨_, rfl⟩

theorem simStep_ok_lengths {threshold rho d : ℚ} {fireMaps : List Grid} {place : Strategy}
    {t : Nat} {st st2 : SimState}
    (h : simStep threshold rho d fireMaps place t st = .ok st2) :
    st2.sensorHist.length = st.sensorHist.length + 1 ∧
      st2.coverageHist.length = st.coverageHist.length + 1 := by
  unfold simStep at h
  cases hg : fireMaps.get? t with
  | none =>
    rw [hg] at h
    exact absurd h (by simp)
  | some fm =>
    rw [hg] at h
    have h2 := Except.ok.inj h
    subst h2
    constructor <;> simp

theorem runAux_short (threshold rho d : ℚ) (fireMaps : List Grid) (place : Strategy) :
    ∀ (fuel t : Nat) (st : SimState), fireMaps.length < t + fuel → t ≤ fireMaps.length →
      (runAux threshold rho d fireMaps place fuel t st).2 = some "list index out of range" ∧
      (runAux threshold rho d fireMaps place fuel t st).1.sensorHist.length
        = st.sensorHist.length + (fireMaps.length - t) ∧
      (runAux threshold rho d fireMaps place fuel t st).1.coverageHist.length
        = st.coverageHist.length + (fireMaps.length - t)
  | 0, t, st, hgt, hle => by omega
  | fuel + 1, t, st, hgt, hle => by
    rcases Nat.lt_or_ge t fireMaps.length with hm | hm
    · obtain ⟨st2, hstep⟩ :=
        @simStep_isOk threshold rho d fireMaps place t st hm
      obtain ⟨hs, hcv⟩ := simStep_ok_lengths hstep
      rw [runAux, hstep]
      obtain ⟨h1, h2, h3⟩ := runAux_short threshold rho d fireMaps place fuel (t + 1) st2
        (by omega) (by omega)
      refine ⟨h1, ?_, ?_⟩
      · rw [h2, hs]; omega
      · rw [h3, hcv]; omega
    · have ht : t = fireMaps.length := le_antisymm hle hm
      rw [runAux, simStep_none hm]
      subst ht
      dsimp only
      exact ⟨rfl, by omega, by omega⟩

/-! ### Genetic strategy lemmas: draws, population, selection -/

theorem randomCell_ok {rows cols : Nat} {g : RGen} {p : Pos} {g2 : RGen}
    (h : randomCell rows cols g = .ok (p, g2)) : inRangePos rows cols p := by
  unfold randomCell at h
  by_cases h1 : rows = 0
  · rw [if_pos h1] at h
    exact absurd h (by simp)
  rw [if_neg h1] at h
  by_cases h2 : cols = 0
  · simp only [if_pos h2] at h
    exact absurd h (by simp)
  · simp only [if_neg h2] at h
    have h3 := Except.ok.inj h
    have hp : p = ((rnext g).1 % rows, (rnext ((rnext g).2)).1 % cols) := by
      have := congrArg Prod.fst h3
      exact this.symm
    rw [hp]
    exact ⟨Nat.mod_lt _ (Nat.pos_of_ne_zero h1), Nat.mod_lt _ (Nat.pos_of_ne_zero h2)⟩

theorem randomCell_isOk {rows cols : Nat} (h1 : rows ≠ 0) (h2 : cols ≠ 0) (g : RGen) :
    ∃ p g2, randomCell rows cols g = .ok (p, g2) := by
  unfold randomCell
  rw [if_neg h1]
  dsimp only
  rw [if_neg h2]
  exact ⟨_, _, rfl⟩

theorem randomCandidate_ok {rows cols : Nat} :
    ∀ {k : Nat} {g : RGen} {c : Cand} {g2 : RGen},
      randomCandidate rows cols k g = .ok (c, g2) →
      c.length = k ∧ ∀ p ∈ c, inRangePos rows cols p
  | 0, g, c, g2, h => by
    unfold randomCandidate at h
    have h3 := Except.ok.inj h
    have hc : c = [] := (congrArg Prod.fst h3).symm
    subst hc
    exact ⟨rfl, by simp⟩
  | k + 1, g, c, g2, h => by
    rw [randomCandidate] at h
    cases hc : randomCell rows cols g with
    | error e =>
      rw [hc] at h
      exact absurd h (by simp)
    | ok pg =>
      obtain ⟨p, g1⟩ := pg
      rw [hc] at h
      dsimp only at h
      cases hr : randomCandidate rows cols k g1 with
      | error e =>
        rw [hr] at h
        exact absurd h (by simp)
      | ok cg =>
        obtain ⟨ps, g3⟩ := cg
        rw [hr] at h
        dsimp only at h
        have h3 := Except.ok.inj h
        have hcc : c = p :: ps := (congrArg Prod.fst h3).symm
        subst hcc
        obtain ⟨hl, hm⟩ := randomCandidate_ok hr
        refine ⟨by simp [hl], ?_⟩
        intro q hq
        rcases List.mem_cons.mp hq with rfl | hq2
        · exact randomCell_ok hc
        · exact hm q hq2

theorem randomCandidate_isOk {rows cols : Nat} (h1 : rows ≠ 0) (h2 : cols ≠ 0) :
    ∀ (k : Nat) (g : RGen), ∃ c g2, randomCandidate rows cols k g = .ok (c, g2)
  | 0, g => ⟨[], g, rfl⟩
  | k + 1, g => by
    rw [randomCandidate]
    obtain ⟨p, gp, hp⟩ := randomCell_isOk h1 h2 g
    rw [hp]
    dsimp only
    obtain ⟨c, gc, hc⟩ := randomCandidate_isOk h1 h2 k gp
    rw [hc]
    exact ⟨_, _, rfl⟩

theorem initPop_ok {rows cols ns : Nat} :
    ∀ {k : Nat} {g : RGen} {pop : List Cand} {g2 : RGen},
      initPop rows cols ns k g = .ok (pop, g2) →
      pop.length = k ∧ ∀ c ∈ pop, c.length = ns ∧ ∀ p ∈ c, inRangePos rows cols p
  | 0, g, pop, g2, h => by
    unfold initPop at h
    have h3 := Except.ok.inj h
    have hp : pop = [] := (congrArg Prod.fst h3).symm
    subst hp
    exact ⟨rfl, by simp⟩
  | k + 1, g, pop, g2, h => by
    rw [initPop] at h
    cases hc : randomCandidate rows cols ns g with
    | error e =>
      rw [hc] at h
      exact absurd h (by simp)
    | ok cg =>
      obtain ⟨c, g1⟩ := cg
      rw [hc] at h
      dsimp only at h
      cases hr : initPop rows cols ns k g1 with
      | error e =>
        rw [hr] at h
        exact absurd h (by simp)
      | ok pg =>
        obtain ⟨ps, g3⟩ := pg
        rw [hr] at h
        dsimp only at h
        have h3 := Except.ok.inj h
        have hpp : pop = c :: ps := (congrArg Prod.fst h3).symm
        subst hpp
        obtain ⟨hl, hm⟩ := initPop_ok hr
        refine ⟨by simp [hl], ?_⟩
        intro q hq
        rcases List.mem_cons.mp hq with rfl | hq2
        · exact randomCandidate_ok hc
        · exact hm q hq2

theorem initPop_isOk {rows cols ns : Nat} (h1 : rows ≠ 0) (h2 : cols ≠ 0) :
    ∀ (k : Nat) (g : RGen), ∃ pop g2, initPop rows cols ns k g = .ok (pop, g2)
  | 0, g => ⟨[], g, rfl⟩
  | k + 1, g => by
    rw [initPop]
    obtain ⟨c, gc, hc⟩ := randomCandidate_isOk h1 h2 ns g
    rw [hc]
    dsimp only
    obtain ⟨ps, gp, hp⟩ := initPop_isOk h1 h2 k gc
    rw [hp]
    exact ⟨_, _, rfl⟩

theorem sample3_err {pop : List Cand} (h : pop.length < 3) (g : RGen) :
    sample3 pop g = .error "sample larger than population or is negative" := by
  unfold sample3
  rw [if_pos h]

theorem sample3_ok_props {pop : List Cand} {g : RGen} {t : List Cand} {g3 : RGen}
    (h : sample3 pop g = .ok (t, g3)) : t.length = 3 ∧ ∀ x ∈ t, x ∈ pop := by
  unfold sample3 at h
  by_cases hlen : pop.length < 3
  · rw [if_pos hlen] at h
    exact absurd h (by simp)
  rw [if_neg hlen] at h
  dsimp only at h
  have h3 := Except.ok.inj h
  have ht := (congrArg Prod.fst h3).symm
  subst ht
  have hpos : 0 < pop.length := by omega
  have hx1 : pop.getD ((rnext g).1 % pop.length) [] ∈ pop := getD_mem (Nat.mod_lt _ hpos)
  have hlen1 : (pop.eraseIdx ((rnext g).1 % pop.length)).length = pop.length - 1 := by
    rw [List.length_eraseIdx, if_pos (Nat.mod_lt _ hpos)]
  have hpos1 : 0 < (pop.eraseIdx ((rnext g).1 % pop.length)).length := by omega
  have hx2m : (pop.eraseIdx ((rnext g).1 % pop.length)).getD
      ((rnext ((rnext g).2)).1 % (pop.eraseIdx ((rnext g).1 % pop.length)).length) [] ∈
      pop.eraseIdx ((rnext g).1 % pop.length) := getD_mem (Nat.mod_lt _ hpos1)
  have hx2 := List.eraseIdx_subset _ _ hx2m
  refine ⟨rfl, ?_⟩
  intro x hx
  simp only [List.mem_cons, List.not_mem_nil, or_false] at hx
  rcases hx with rfl | rfl | rfl
  · exact hx1
  · exact hx2
  · have hlen2 : ((pop.eraseIdx ((rnext g).1 % pop.length)).eraseIdx
        ((rnext ((rnext g).2)).1 % (pop.eraseIdx ((rnext g).1 % pop.length)).length)).length
        = pop.length - 2 := by
      rw [List.length_eraseIdx, if_pos (Nat.mod_lt _ hpos1), hlen1]
      omega
    have hpos2 : 0 < ((pop.eraseIdx ((rnext g).1 % pop.length)).eraseIdx
        ((rnext ((rnext g).2)).1 % (pop.eraseIdx ((rnext g).1 % pop.length)).length)).length := by
      omega
    have hx3m := getD_mem (l := (pop.eraseIdx ((rnext g).1 % pop.length)).eraseIdx
        ((rnext ((rnext g).2)).1 % (pop.eraseIdx ((rnext g).1 % pop.length)).length))
      (i := (rnext ((rnext ((rnext g).2)).2)).1 %
        ((pop.eraseIdx ((rnext g).1 % pop.length)).eraseIdx
          ((rnext ((rnext g).2)).1 % (pop.eraseIdx ((rnext g).1 % pop.length)).length)).length)
      (d := []) (Nat.mod_lt _ hpos2)
    exact List.eraseIdx_subset _ _ (List.eraseIdx_subset _ _ hx3m)

theorem sample3_isOk {pop : List Cand} (h : 3 ≤ pop.length) (g : RGen) :
    ∃ t g3, sample3 pop g = .ok (t, g3) := by
  unfold sample3
  rw [if_neg (not_lt.mpr h)]
  exact ⟨_, _, rfl⟩

theorem firstMaxAux_mem (fitf : Cand → ℚ) :
    ∀ (l : List Cand) (best : Cand),
      firstMaxAux fitf l best = best ∨ firstMaxAux fitf l best ∈ l
  | [], best => Or.inl rfl
  | c :: cs, best => by
    rw [firstMaxAux]
    rcases firstMaxAux_mem fitf cs (if fitf best < fitf c then c else best) with h | h
    · rw [h]
      by_cases hc : fitf best < fitf c
      · rw [if_pos hc]
        exact Or.inr (List.mem_cons_self c cs)
      · rw [if_neg hc]
        exact Or.inl rfl
    · exact Or.inr (List.mem_cons_of_mem _ h)

theorem firstMax_mem (fitf : Cand → ℚ) : ∀ {t : List Cand}, t ≠ [] → firstMax fitf t ∈ t
  | [], h => absurd rfl h
  | c :: cs, _ => by
    rw [firstMax]
    rcases firstMaxAux_mem fitf cs c with h | h
    · rw [h]
      exact List.mem_cons_self c cs
    · exact List.mem_cons_of_mem _ h

theorem selectLoop_err {fitf : Cand → ℚ} {pop : List Cand} (h : pop.length < 3)
    (k : Nat) (g : RGen) :
    selectLoop fitf pop (k + 1) g =
      .error "sample larger than population or is negative" := by
  rw [selectLoop, sample3_err h]

theorem selectLoop_ok_props {fitf : Cand → ℚ} {pop : List Cand} :
    ∀ {k : Nat} {g : RGen} {out : List Cand} {g2 : RGen},
      selectLoop fitf pop k g = .ok (out, g2) →
      out.length = k ∧ ∀ x ∈ out, x ∈ pop
  | 0, g, out, g2, h => by
    unfold selectLoop at h
    have h3 := Except.ok.inj h
    have ho : out = [] := (congrArg Prod.fst h3).symm
    subst ho
    exact ⟨rfl, by simp⟩
  | k + 1, g, out, g2, h => by
    rw [selectLoop] at h
    cases hs : sample3 pop g with
    | error e =>
      rw [hs] at h
      exact absurd h (by simp)
    | ok tg =>
      obtain ⟨t, g1⟩ := tg
      rw [hs] at h
      dsimp only at h
      cases hr : selectLoop fitf pop k g1 with
      | error e =>
        rw [hr] at h
        exact absurd h (by simp)
      | ok og =>
        obtain ⟨rest, g3⟩ := og
        rw [hr] at h
        dsimp only at h
        have h3 := Except.ok.inj h
        have ho : out = firstMax fitf t :: rest := (congrArg Prod.fst h3).symm
        subst ho
        obtain ⟨hl, hm⟩ := selectLoop_ok_props hr
        obtain ⟨htl, htm⟩ := sample3_ok_props hs
        refine ⟨by simp [hl], ?_⟩
        intro x hx
        rcases List.mem_cons.mp hx with rfl | hx2
        · refine htm _ (firstMax_mem fitf ?_)
          intro hnil
          rw [hnil] at htl
          simp at htl
        · exact hm x hx2

theorem selectLoop_isOk {fitf : Cand → ℚ} {pop : List Cand} (h : 3 ≤ pop.length) :
    ∀ (k : Nat) (g : RGen), ∃ out g2, selectLoop fitf pop k g = .ok (out, g2)
  | 0, g => ⟨[], g, rfl⟩
  | k + 1, g => by
    rw [selectLoop]
    obtain ⟨t, g1, hs⟩ := sample3_isOk h g
    rw [hs]
    dsimp only
    obtain ⟨rest, g3, hr⟩ := @selectLoop_isOk fitf pop h k g1
    rw [hr]
    exact ⟨_, _, rfl⟩

/-! ### Genetic strategy lemmas: crossover, mutation, evolution -/

theorem randCut_err {ns : Nat} (h : ns < 2) (g : RGen) :
    randCut ns g = .error "empty range for randrange" := by
  unfold randCut
  rw [if_pos (by omega : (ns : Int) - 1 < 1)]

theorem randCut_ok {ns : Nat} {g : RGen} {point : Nat} {g2 : RGen}
    (h : randCut ns g = .ok (point, g2)) : 2 ≤ ns ∧ 1 ≤ point ∧ point ≤ ns - 1 := by
  unfold randCut at h
  by_cases hc : (ns : Int) - 1 < 1
  · rw [if_pos hc] at h
    exact absurd h (by simp)
  · rw [if_neg hc] at h
    dsimp only at h
    have h3 := Except.ok.inj h
    have hp : point = 1 + (rnext g).1 % (ns - 1) := (congrArg Prod.fst h3).symm
    have h2 : 2 ≤ ns := by omega
    have hmod := Nat.mod_lt ((rnext g).1) (y := ns - 1) (by omega)
    exact ⟨h2, by omega, by omega⟩

theorem randCut_isOk {ns : Nat} (h : 2 ≤ ns) (g : RGen) :
    ∃ point g2, randCut ns g = .ok (point, g2) := by
  unfold randCut
  rw [if_neg (by omega : ¬((ns : Int) - 1 < 1))]
  exact ⟨_, _, rfl⟩

theorem dedupeScan_ok {rows cols : Nat} :
    ∀ {input acc : List Pos} {g : RGen} {out : List Pos} {g2 : RGen},
      dedupeScan rows cols input acc g = .ok (out, g2) →
      out.length = acc.length + input.length ∧
      ∀ p ∈ out, p ∈ acc ∨ p ∈ input ∨ inRangePos rows cols p
  | [], acc, g, out, g2, h => by
    unfold dedupeScan at h
    have h3 := Except.ok.inj h
    have ho : out = acc := (congrArg Prod.fst h3).symm
    subst ho
    exact ⟨by simp, fun p hp => Or.inl hp⟩
  | p :: rest, acc, g, out, g2, h => by
    rw [dedupeScan] at h
    by_cases hm : p ∈ acc
    · rw [if_pos hm] at h
      cases hc : randomCell rows cols g with
      | error e =>
        rw [hc] at h
        exact absurd h (by simp)
      | ok qg =>
        obtain ⟨q, g1⟩ := qg
        rw [hc] at h
        dsimp only at h
        obtain ⟨hl, hmm⟩ := dedupeScan_ok h
        refine ⟨by simp at hl ⊢; omega, ?_⟩
        intro x hx
        rcases hmm x hx with h1 | h1 | h1
        · rcases List.mem_append.mp h1 with h2 | h2
          · exact Or.inl h2
          · simp only [List.mem_singleton] at h2
            subst h2
            exact Or.inr (Or.inr (randomCell_ok hc))
        · exact Or.inr (Or.inl (List.mem_cons_of_mem _ h1))
        · exact Or.inr (Or.inr h1)
    · rw [if_neg hm] at h
      obtain ⟨hl, hmm⟩ := dedupeScan_ok h
      refine ⟨by simp at hl ⊢; omega, ?_⟩
      intro x hx
      rcases hmm x hx with h1 | h1 | h1
      · rcases List.mem_append.mp h1 with h2 | h2
        · exact Or.inl h2
        · simp only [List.mem_singleton] at h2
          subst h2
          exact Or.inr (Or.inl (List.mem_cons_self _ _))
      · exact Or.inr (Or.inl (List.mem_cons_of_mem _ h1))
      · exact Or.inr (Or.inr h1)

theorem dedupeScan_isOk {rows cols : Nat} (h1 : rows ≠ 0) (h2 : cols ≠ 0) :
    ∀ (input acc : List Pos) (g : RGen),
      ∃ out g2, dedupeScan rows cols input acc g = .ok (out, g2)
  | [], acc, g => ⟨acc, g, rfl⟩
  | p :: rest, acc, g => by
    rw [dedupeScan]
    by_cases hm : p ∈ acc
    · rw [if_pos hm]
      obtain ⟨q, gq, hq⟩ := randomCell_isOk h1 h2 g
      rw [hq]
      exact dedupeScan_isOk h1 h2 rest (acc ++ [q]) gq
    · rw [if_neg hm]
      exact dedupeScan_isOk h1 h2 rest (acc ++ [p]) g

theorem padLoop_of_le {rows cols ns : Nat} {acc : List Pos} (h : ns ≤ acc.length) :
    ∀ (fuel : Nat) (g : RGen), padLoop rows cols ns fuel acc g = .ok (acc, g)
  | 0, g => by rw [padLoop, if_pos h]
  | fuel + 1, g => by rw [padLoop, if_pos h]

theorem padLoop_ok {rows cols ns : Nat} :
    ∀ {fuel : Nat} {acc : List Pos} {g : RGen} {out : List Pos} {g2 : RGen},
      padLoop rows cols ns fuel acc g = .ok (out, g2) →
      ns ≤ out.length ∧ ∀ p ∈ out, p ∈ acc ∨ inRangePos rows cols p
  | 0, acc, g, out, g2, h => by
    rw [padLoop] at h
    by_cases hle : ns ≤ acc.length
    · rw [if_pos hle] at h
      have h3 := Except.ok.inj h
      have ho : out = acc := (congrArg Prod.fst h3).symm
      subst ho
      exact ⟨hle, fun p hp => Or.inl hp⟩
    · rw [if_neg hle] at h
      exact absurd h (by simp)
  | fuel + 1, acc, g, out, g2, h => by
    rw [padLoop] at h
    by_cases hle : ns ≤ acc.length
    · rw [if_pos hle] at h
      have h3 := Except.ok.inj h
      have ho : out = acc := (congrArg Prod.fst h3).symm
      subst ho
      exact ⟨hle, fun p hp => Or.inl hp⟩
    · rw [if_neg hle] at h
      cases hc : randomCell rows cols g with
      | error e =>
        rw [hc] at h
        exact absurd h (by simp)
      | ok qg =>
        obtain ⟨q, g1⟩ := qg
        rw [hc] at h
        dsimp only at h
        by_cases hq : q ∈ acc
        · rw [if_pos hq] at h
          exact padLoop_ok h
        · rw [if_neg hq] at h
          obtain ⟨hl, hmm⟩ := padLoop_ok h
          refine ⟨hl, ?_⟩
          intro x hx
          rcases hmm x hx with h1 | h1
          · rcases List.mem_append.mp h1 with h2 | h2
            · exact Or.inl h2
            · simp only [List.mem_singleton] at h2
              subst h2
              exact Or.inr (randomCell_ok hc)
          · exact Or.inr h1

theorem crossoverGA_err {rows cols ns : Nat} (h : ns < 2) (p1 p2 : Cand) (g : RGen) :
    crossoverGA rows cols ns p1 p2 g = .error "empty range for randrange" := by
  unfold crossoverGA
  rw [randCut_err h]

theorem crossoverGA_ok {rows cols ns : Nat} {p1 p2 : Cand} {g : RGen} {child : Cand}
    {g2 : RGen} (h : crossoverGA rows cols ns p1 p2 g = .ok (child, g2))
    (hp1 : candOk rows cols ns p1) (hp2 : candOk rows cols ns p2) :
    candOk rows cols ns child := by
  unfold crossoverGA at h
  cases hcut : randCut ns g with
  | error e =>
    rw [hcut] at h
    exact absurd h (by simp)
  | ok ptg =>
    obtain ⟨point, g1⟩ := ptg
    rw [hcut] at h
    dsimp only at h
    obtain ⟨h2ns, hpt1, hptle⟩ := randCut_ok hcut
    cases hds : dedupeScan rows cols (p1.take point ++ p2.drop point) [] g1 with
    | error e =>
      rw [hds] at h
      exact absurd h (by simp)
    | ok ucg =>
      obtain ⟨uc, g3⟩ := ucg
      rw [hds] at h
      dsimp only at h
      obtain ⟨hducLen, hducMem⟩ := dedupeScan_ok hds
      have hchildLen : (p1.take point ++ p2.drop point).length = ns := by
        rw [List.length_append, List.length_take, List.length_drop, hp1.1, hp2.1]
        omega
      have hucLen : uc.length = ns := by
        rw [hducLen, hchildLen]
        simp
      cases hpad : padLoop rows cols ns ns uc g3 with
      | error e =>
        rw [hpad] at h
        exact absurd h (by simp)
      | ok pdg =>
        obtain ⟨padded, g4⟩ := pdg
        rw [hpad] at h
        dsimp only at h
        obtain ⟨hpadLen, hpadMem⟩ := padLoop_ok hpad
        have h3 := Except.ok.inj h
        have hch : child = padded.take ns := (congrArg Prod.fst h3).symm
        subst hch
        constructor
        · rw [List.length_take]
          omega
        · intro p hp
          have hp2m := List.take_subset _ _ hp
          rcases hpadMem p hp2m with h1 | h1
          · rcases hducMem p h1 with h4 | h4 | h4
            · simp at h4
            · rcases List.mem_append.mp h4 with h5 | h5
              · exact hp1.2 p (List.take_subset _ _ h5)
              · exact hp2.2 p (List.drop_subset _ _ h5)
            · exact h4
          · exact h1

theorem mutateGA_ok {rows cols : Nat} {mrate : ℚ} :
    ∀ {k : Nat} {input : Cand} {g : RGen} {out : Cand} {g2 : RGen},
      mutateGA rows cols mrate k input g = .ok (out, g2) →
      out.length = input.length ∧ ∀ p ∈ out, p ∈ input ∨ inRangePos rows cols p
  | 0, input, g, out, g2, h => by
    unfold mutateGA at h
    have h3 := Except.ok.inj h
    have ho : out = input := (congrArg Prod.fst h3).symm
    subst ho
    exact ⟨rfl, fun p hp => Or.inl hp⟩
  | k + 1, [], g, out, g2, h => by
    unfold mutateGA at h
    exact absurd h (by simp)
  | k + 1, x :: xs, g, out, g2, h => by
    rw [mutateGA] at h
    by_cases hb : (randomLt mrate g).1 = true
    · rw [if_pos hb] at h
      cases hc : randomCell rows cols (randomLt mrate g).2 with
      | error e =>
        rw [hc] at h
        exact absurd h (by simp)
      | ok qg =>
        obtain ⟨p, g1⟩ := qg
        rw [hc] at h
        dsimp only at h
        cases hr : mutateGA rows cols mrate k xs g1 with
        | error e =>
          rw [hr] at h
          exact absurd h (by simp)
        | ok og =>
          obtain ⟨rest, g3⟩ := og
          rw [hr] at h
          dsimp only at h
          have h3 := Except.ok.inj h
          have ho : out = p :: rest := (congrArg Prod.fst h3).symm
          subst ho
          obtain ⟨hl, hm⟩ := mutateGA_ok hr
          refine ⟨by simp [hl], ?_⟩
          intro q hq
          rcases List.mem_cons.mp hq with rfl | hq2
          · exact Or.inr (randomCell_ok hc)
          · rcases hm q hq2 with h4 | h4
            · exact Or.inl (List.mem_cons_of_mem _ h4)
            · exact Or.inr h4
    · rw [if_neg hb] at h
      cases hr : mutateGA rows cols mrate k xs (randomLt mrate g).2 with
      | error e =>
        rw [hr] at h
        exact absurd h (by simp)
      | ok og =>
        obtain ⟨rest, g3⟩ := og
        rw [hr] at h
        dsimp only at h
        have h3 := Except.ok.inj h
        have ho : out = x :: rest := (congrArg Prod.fst h3).symm
        subst ho
        obtain ⟨hl, hm⟩ := mutateGA_ok hr
        refine ⟨by simp [hl], ?_⟩
        intro q hq
        rcases List.mem_cons.mp hq with rfl | hq2
        · exact Or.inl (List.mem_cons_self _ _)
        · rcases hm q hq2 with h4 | h4
          · exact Or.inl (List.mem_cons_of_mem _ h4)
          · exact Or.inr h4

theorem mutateGA_zero {rows cols : Nat} :
    ∀ (k : Nat) (input : Cand) (g : RGen), k ≤ input.length →
      ∃ g2, mutateGA rows cols 0 k input g = .ok (input, g2)
  | 0, input, g, _ => ⟨g, rfl⟩
  | k + 1, [], g, h => by simp at h
  | k + 1, x :: xs, g, h => by
    rw [mutateGA]
    have hb : (randomLt 0 g).1 = false := by
      unfold randomLt
      dsimp only
      rw [if_pos le_rfl]
    rw [if_neg (by rw [hb]; exact Bool.false_ne_true)]
    obtain ⟨g2, hg2⟩ := mutateGA_zero k xs ((randomLt 0 g).2) (by simpa using h)
    rw [hg2]
    exact ⟨g2, rfl⟩

theorem breedLoop_err {rows cols ns : Nat} (h : ns < 2) (mutationRate : ℚ)
    (newPop : List Cand) (popSize count i : Nat) (g : RGen) :
    breedLoop rows cols ns mutationRate newPop popSize (count + 1) i g =
      .error "empty range for randrange" := by
  rw [breedLoop, crossoverGA_err h]

theorem breedLoop_ok {rows cols ns : Nat} {mutationRate : ℚ} {newPop : List Cand}
    {popSize : Nat} (hlen : newPop.length = popSize)
    (hm : ∀ c ∈ newPop, candOk rows cols ns c) :
    ∀ {count i : Nat} {g : RGen} {children : List Cand} {g2 : RGen},
      i + 2 * count ≤ popSize + 1 →
      breedLoop rows cols ns mutationRate newPop popSize count i g = .ok (children, g2) →
      ∀ c ∈ children, candOk rows cols ns c
  | 0, i, g, children, g2, hi, h => by
    unfold breedLoop at h
    have h3 := Except.ok.inj h
    have hc : children = [] := (congrArg Prod.fst h3).symm
    subst hc
    simp
  | count + 1, i, g, children, g2, hi, h => by
    rw [breedLoop] at h
    have hpS : 0 < popSize := by omega
    have hiLt : i < popSize := by omega
    have hp1 : candOk rows cols ns (newPop.getD i []) :=
      hm _ (getD_mem (by omega))
    have hp2 : candOk rows cols ns (newPop.getD ((i + 1) % popSize) []) :=
      hm _ (getD_mem (by rw [hlen]; exact Nat.mod_lt _ hpS))
    cases hx1 : crossoverGA rows cols ns (newPop.getD i []) (newPop.getD ((i + 1) % popSize) []) g with
    | error e =>
      rw [hx1] at h
      exact absurd h (by simp)
    | ok c1g =>
      obtain ⟨c1, g1⟩ := c1g
      rw [hx1] at h
      dsimp only at h
      cases hx2 : crossoverGA rows cols ns (newPop.getD ((i + 1) % popSize) []) (newPop.getD i []) g1 with
      | error e =>
        rw [hx2] at h
        exact absurd h (by simp)
      | ok c2g =>
        obtain ⟨c2, g2x⟩ := c2g
        rw [hx2] at h
        dsimp only at h
        cases hm1 : mutateGA rows cols mutationRate ns c1 g2x with
        | error e =>
          rw [hm1] at h
          exact absurd h (by simp)
        | ok m1g =>
          obtain ⟨m1, g3⟩ := m1g
          rw [hm1] at h
          dsimp only at h
          cases hm2 : mutateGA rows cols mutationRate ns c2 g3 with
          | error e =>
            rw [hm2] at h
            exact absurd h (by simp)
          | ok m2g =>
            obtain ⟨m2, g4⟩ := m2g
            rw [hm2] at h
            dsimp only at h
            cases hrec : breedLoop rows cols ns mutationRate newPop popSize count (i + 2) g4 with
            | error e =>
              rw [hrec] at h
              exact absurd h (by simp)
            | ok rg =>
              obtain ⟨rest, g5⟩ := rg
              rw [hrec] at h
              dsimp only at h
              have h3 := Except.ok.inj h
              have hc : children = m1 :: m2 :: rest := (congrArg Prod.fst h3).symm
              subst hc
              have hc1 : candOk rows cols ns c1 := crossoverGA_ok hx1 hp1 hp2
              have hc2 : candOk rows cols ns c2 := crossoverGA_ok hx2 hp2 hp1
              obtain ⟨hl1, hmm1⟩ := mutateGA_ok hm1
              obtain ⟨hl2, hmm2⟩ := mutateGA_ok hm2
              intro c hc
              rcases List.mem_cons.mp hc with rfl | hc
              · refine ⟨by rw [hl1, hc1.1], ?_⟩
                intro p hp
                rcases hmm1 p hp with h4 | h4
                · exact hc1.2 p h4
                · exact h4
              rcases List.mem_cons.mp hc with rfl | hc
              · refine ⟨by rw [hl2, hc2.1], ?_⟩
                intro p hp
                rcases hmm2 p hp with h4 | h4
                · exact hc2.2 p h4
                · exact h4
              · exact breedLoop_ok hlen hm (by omega) hrec c hc

theorem updateBest_ok (P : Cand → Prop) :
    ∀ (l : List (Cand × ℚ)) (best : Option Cand) (bestF : Option ℚ),
      (∀ cf ∈ l, P cf.1) → (∀ c, best = some c → P c) →
      ∀ c, (updateBest l best bestF).1 = some c → P c
  | [], best, bestF, hl, hb, c, h => hb c h
  | (cand, f) :: rest, best, bestF, hl, hb, c, h => by
    rw [updateBest.eq_def] at h
    dsimp only at h
    split at h
    · refine updateBest_ok P rest (some cand) (some f) ?_ ?_ c h
      · intro cf hcf
        exact hl cf (List.mem_cons_of_mem _ hcf)
      · intro x hx
        have hx2 : cand = x := Option.some.inj hx
        subst hx2
        exact hl (cand, f) (List.mem_cons_self _ _)
    · refine updateBest_ok P rest best bestF ?_ hb c h
      intro cf hcf
      exact hl cf (List.mem_cons_of_mem _ hcf)

theorem genLoop_ok {rows cols ns popSize : Nat} {mutationRate : ℚ} {fitf : Cand → ℚ} :
    ∀ {gens : Nat} {pop : List Cand} {best : Option Cand} {bestF : Option ℚ} {g : RGen}
      {bestOut : Option Cand} {g2 : RGen},
      genLoop rows cols ns popSize mutationRate fitf gens pop best bestF g = .ok (bestOut, g2) →
      (∀ c ∈ pop, candOk rows cols ns c) →
      (∀ c, best = some c → candOk rows cols ns c) →
      ∀ c, bestOut = some c → candOk rows cols ns c
  | 0, pop, best, bestF, g, bestOut, g2, h, hp, hb, c, hc => by
    unfold genLoop at h
    have h3 := Except.ok.inj h
    have ho : bestOut = best := (congrArg Prod.fst h3).symm
    subst ho
    exact hb c hc
  | gens + 1, pop, best, bestF, g, bestOut, g2, h, hp, hb, c, hc => by
    rw [genLoop] at h
    cases hs : selectLoop fitf pop popSize g with
    | error e =>
      rw [hs] at h
      exact absurd h (by simp)
    | ok ng =>
      obtain ⟨newPop, g1⟩ := ng
      rw [hs] at h
      dsimp only at h
      obtain ⟨hnl, hnm⟩ := selectLoop_ok_props hs
      cases hbr : breedLoop rows cols ns mutationRate newPop popSize ((popSize + 1) / 2) 0 g1 with
      | error e =>
        rw [hbr] at h
        exact absurd h (by simp)
      | ok cg =>
        obtain ⟨children, g3⟩ := cg
        rw [hbr] at h
        dsimp only at h
        have hchild : ∀ x ∈ children, candOk rows cols ns x :=
          breedLoop_ok hnl (fun x hx => hp x (hnm x hx)) (by omega) hbr
        refine genLoop_ok h ?_ ?_ c hc
        · intro x hx
          exact hchild x (List.take_subset _ _ hx)
        · intro x hx
          refine updateBest_ok (candOk rows cols ns) (pop.zip (pop.map fitf)) best bestF
            ?_ hb x hx
          intro cf hcf
          exact hp cf.1 (List.of_mem_zip (by exact hcf)).1

theorem geneticPlace_ok_candOk {msqrt : Int → ℚ} {ns : Nat} {rho : ℚ}
    {popSize gens : Nat} {mutationRate alphaW betaW : ℚ} {fireMap bpMap : Grid}
    {g : RGen} {c : Cand}
    (h : geneticPlace msqrt ns rho popSize gens mutationRate alphaW betaW fireMap bpMap g
      = .ok (some c)) :
    candOk bpMap.rows bpMap.cols ns c := by
  unfold geneticPlace at h
  dsimp only at h
  cases hi : initPop bpMap.rows bpMap.cols ns popSize g with
  | error e =>
    rw [hi] at h
    exact absurd h (by simp)
  | ok pg =>
    obtain ⟨pop0, g1⟩ := pg
    rw [hi] at h
    dsimp only at h
    obtain ⟨hpl, hpm⟩ := initPop_ok hi
    cases hg : genLoop bpMap.rows bpMap.cols ns popSize mutationRate
        (fitnessGA msqrt alphaW betaW rho fireMap bpMap) gens pop0 none none g1 with
    | error e =>
      rw [hg] at h
      exact absurd h (by simp)
    | ok bg =>
      obtain ⟨best, g3⟩ := bg
      rw [hg] at h
      dsimp only at h
      have hbest : best = some c := Except.ok.inj h
      exact genLoop_ok hg (fun x hx => hpm x hx) (fun x hx => absurd hx (by simp)) c hbest

/-! ### Genetic strategy: error propagation and degenerate configurations -/

theorem genLoop_sel_err {rows cols ns popSize : Nat} {mutationRate : ℚ}
    {fitf : Cand → ℚ} {gens : Nat} (hg : gens ≠ 0) {pop : List Cand}
    {best : Option Cand} {bestF : Option ℚ} {g : RGen} {e : String}
    (hs : selectLoop fitf pop popSize g = .error e) :
    genLoop rows cols ns popSize mutationRate fitf gens pop best bestF g = .error e := by
  obtain ⟨k, rfl⟩ := Nat.exists_eq_succ_of_ne_zero hg
  rw [genLoop, hs]

theorem genLoop_breed_err {rows cols ns popSize : Nat} {mutationRate : ℚ}
    {fitf : Cand → ℚ} {gens : Nat} (hg : gens ≠ 0) {pop newPop : List Cand}
    {best : Option Cand} {bestF : Option ℚ} {g g1 : RGen} {e : String}
    (hs : selectLoop fitf pop popSize g = .ok (newPop, g1))
    (hb : breedLoop rows cols ns mutationRate newPop popSize ((popSize + 1) / 2) 0 g1
      = .error e) :
    genLoop rows cols ns popSize mutationRate fitf gens pop best bestF g = .error e := by
  obtain ⟨k, rfl⟩ := Nat.exists_eq_succ_of_ne_zero hg
  rw [genLoop, hs]
  dsimp only
  rw [hb]

theorem geneticPlace_pop1_err (msqrt : Int → ℚ) (ns : Nat) (rho alphaW betaW : ℚ)
    (fireMap bpMap : Grid) (g : RGen) :
    (geneticPlace msqrt ns rho 1 1 0 alphaW betaW fireMap bpMap g).isOk = false := by
  unfold geneticPlace
  dsimp only
  cases hi : initPop bpMap.rows bpMap.cols ns 1 g with
  | error e =>
    rfl
  | ok pg =>
    obtain ⟨pop0, g1⟩ := pg
    dsimp only
    have hlen : pop0.length = 1 := (initPop_ok hi).1
    have hsel := @selectLoop_err (fitnessGA msqrt alphaW betaW rho fireMap bpMap)
      pop0 (by omega) 0 g1
    rw [genLoop_sel_err one_ne_zero hsel]
    rfl

theorem genLoop_nil {rows cols ns : Nat} {mutationRate : ℚ} {fitf : Cand → ℚ} :
    ∀ (gens : Nat) (g : RGen),
      genLoop rows cols ns 0 mutationRate fitf gens [] none none g = .ok (none, g)
  | 0, g => rfl
  | gens + 1, g => by
    rw [genLoop]
    rw [show selectLoop fitf [] 0 g = .ok ([], g) from rfl]
    dsimp only
    rw [show breedLoop rows cols ns mutationRate [] 0 ((0 + 1) / 2) 0 g = .ok ([], g) from rfl]
    dsimp only
    exact genLoop_nil gens g

theorem geneticPlace_zero_pop (msqrt : Int → ℚ) (ns : Nat) (rho : ℚ) (gens : Nat)
    (mutationRate alphaW betaW : ℚ) (fireMap bpMap : Grid) (g : RGen) :
    geneticPlace msqrt ns rho 0 gens mutationRate alphaW betaW fireMap bpMap g = .ok none := by
  unfold geneticPlace
  dsimp only
  rw [show initPop bpMap.rows bpMap.cols ns 0 g = .ok ([], g) from rfl]
  dsimp only
  rw [genLoop_nil]

theorem geneticPlace_zero_gens (msqrt : Int → ℚ) (ns : Nat) (rho : ℚ) (popSize : Nat)
    (mutationRate alphaW betaW : ℚ) (fireMap bpMap : Grid)
    (h1 : bpMap.rows ≠ 0) (h2 : bpMap.cols ≠ 0) (g : RGen) :
    geneticPlace msqrt ns rho popSize 0 mutationRate alphaW betaW fireMap bpMap g
      = .ok none := by
  unfold geneticPlace
  dsimp only
  obtain ⟨pop0, g1, hi⟩ := initPop_isOk h1 h2 popSize g
  rw [hi]
  dsimp only
  rw [genLoop]

theorem geneticPlace_isOk_necessary {msqrt : Int → ℚ} {ns : Nat} {rho : ℚ}
    {popSize gens : Nat} {mutationRate alphaW betaW : ℚ} {fireMap bpMap : Grid}
    {g : RGen} (hgens : 1 ≤ gens)
    (h : (geneticPlace msqrt ns rho popSize gens mutationRate alphaW betaW fireMap bpMap g).isOk
      = true) :
    popSize = 0 ∨ (3 ≤ popSize ∧ 2 ≤ ns) := by
  by_cases hp0 : popSize = 0
  · exact Or.inl hp0
  refine Or.inr ?_
  by_cases hp3 : popSize < 3
  · exfalso
    unfold geneticPlace at h
    dsimp only at h
    cases hi : initPop bpMap.rows bpMap.cols ns popSize g with
    | error e =>
      rw [hi] at h
      exact Bool.noConfusion h
    | ok pg =>
      obtain ⟨pop0, g1⟩ := pg
      rw [hi] at h
      dsimp only at h
      have hlen : pop0.length = popSize := (initPop_ok hi).1
      obtain ⟨k, hk⟩ := Nat.exists_eq_succ_of_ne_zero hp0
      have hsel : selectLoop (fitnessGA msqrt alphaW betaW rho fireMap bpMap) pop0 popSize g1
          = .error "sample larger than population or is negative" := by
        rw [hk]
        exact selectLoop_err (by omega) k g1
      rw [genLoop_sel_err (by omega) hsel] at h
      exact Bool.noConfusion h
  · constructor
    · omega
    by_contra hns
    unfold geneticPlace at h
    dsimp only at h
    cases hi : initPop bpMap.rows bpMap.cols ns popSize g with
    | error e =>
      rw [hi] at h
      exact Bool.noConfusion h
    | ok pg =>
      obtain ⟨pop0, g1⟩ := pg
      rw [hi] at h
      dsimp only at h
      have hlen : pop0.length = popSize := (initPop_ok hi).1
      obtain ⟨newPop, g2, hsel⟩ := @selectLoop_isOk
        (fitnessGA msqrt alphaW betaW rho fireMap bpMap) pop0
        (by omega) popSize g1
      obtain ⟨cnt, hcnt⟩ := Nat.exists_eq_succ_of_ne_zero
        (by omega : (popSize + 1) / 2 ≠ 0)
      have hbreed : breedLoop bpMap.rows bpMap.cols ns mutationRate newPop popSize
          ((popSize + 1) / 2) 0 g2 = .error "empty range for randrange" := by
        rw [hcnt]
        exact breedLoop_err (show ns < 2 by omega) mutationRate newPop popSize cnt 0 g2
      rw [genLoop_breed_err (by omega) hsel hbreed] at h
      exact Bool.noConfusion h

/-! ### Genetic strategy on a 1×1 grid: the run is fully determined -/

theorem randomCell_one (g : RGen) : ∃ g2, randomCell 1 1 g = .ok ((0, 0), g2) := by
  unfold randomCell
  rw [if_neg one_ne_zero]
  dsimp only
  rw [if_neg one_ne_zero]
  exact ⟨(rnext ((rnext g).2)).2, by rw [Nat.mod_one, Nat.mod_one]⟩

theorem randomCandidate_one : ∀ (k : Nat) (g : RGen),
    ∃ g2, randomCandidate 1 1 k g = .ok (List.replicate k (0, 0), g2)
  | 0, g => ⟨g, rfl⟩
  | k + 1, g => by
    rw [randomCandidate]
    obtain ⟨g1, h1⟩ := randomCell_one g
    rw [h1]
    dsimp only
    obtain ⟨g2, h2⟩ := randomCandidate_one k g1
    rw [h2]
    exact ⟨g2, rfl⟩

theorem initPop_one (ns : Nat) : ∀ (k : Nat) (g : RGen),
    ∃ g2, initPop 1 1 ns k g = .ok (List.replicate k (List.replicate ns (0, 0)), g2)
  | 0, g => ⟨g, rfl⟩
  | k + 1, g => by
    rw [initPop]
    obtain ⟨g1, h1⟩ := randomCandidate_one ns g
    rw [h1]
    dsimp only
    obtain ⟨g2, h2⟩ := initPop_one ns k g1
    rw [h2]
    exact ⟨g2, rfl⟩

theorem sample3_const {x : Cand} {pop : List Cand} (hall : ∀ y ∈ pop, y = x)
    (h3 : 3 ≤ pop.length) (g : RGen) :
    ∃ g2, sample3 pop g = .ok ([x, x, x], g2) := by
  unfold sample3
  rw [if_neg (not_lt.mpr h3)]
  dsimp only
  have hpos : 0 < pop.length := by omega
  have e1 : pop.getD ((rnext g).1 % pop.length) [] = x :=
    hall _ (getD_mem (Nat.mod_lt _ hpos))
  have hlen1 : (pop.eraseIdx ((rnext g).1 % pop.length)).length = pop.length - 1 := by
    rw [List.length_eraseIdx, if_pos (Nat.mod_lt _ hpos)]
  have hpos1 : 0 < (pop.eraseIdx ((rnext g).1 % pop.length)).length := by omega
  have e2 : (pop.eraseIdx ((rnext g).1 % pop.length)).getD
      ((rnext ((rnext g).2)).1 % (pop.eraseIdx ((rnext g).1 % pop.length)).length) [] = x :=
    hall _ (List.eraseIdx_subset _ _ (getD_mem (Nat.mod_lt _ hpos1)))
  have hlen2 : ((pop.eraseIdx ((rnext g).1 % pop.length)).eraseIdx
      ((rnext ((rnext g).2)).1 % (pop.eraseIdx ((rnext g).1 % pop.length)).length)).length
      = pop.length - 2 := by
    rw [List.length_eraseIdx, if_pos (Nat.mod_lt _ hpos1), hlen1]
    omega
  have hpos2 : 0 < ((pop.eraseIdx ((rnext g).1 % pop.length)).eraseIdx
      ((rnext ((rnext g).2)).1 % (pop.eraseIdx ((rnext g).1 % pop.length)).length)).length := by
    omega
  have e3 : ((pop.eraseIdx ((rnext g).1 % pop.length)).eraseIdx
      ((rnext ((rnext g).2)).1 % (pop.eraseIdx ((rnext g).1 % pop.length)).length)).getD
      ((rnext ((rnext ((rnext g).2)).2)).1 %
        ((pop.eraseIdx ((rnext g).1 % pop.length)).eraseIdx
          ((rnext ((rnext g).2)).1 % (pop.eraseIdx ((rnext g).1 % pop.length)).length)).length)
      [] = x :=
    hall _ (List.eraseIdx_subset _ _ (List.eraseIdx_subset _ _
      (getD_mem (Nat.mod_lt _ hpos2))))
  exact ⟨(rnext ((rnext ((rnext g).2)).2)).2, by rw [e1, e2, e3]⟩

theorem firstMaxAux_const (fitf : Cand → ℚ) (x : Cand) :
    ∀ (l : List Cand), (∀ y ∈ l, y = x) → firstMaxAux fitf l x = x
  | [], _ => rfl
  | c :: cs, hall => by
    rw [firstMaxAux]
    have hc : c = x := hall c (List.mem_cons_self c cs)
    subst hc
    rw [ite_self]
    exact firstMaxAux_const fitf c cs (fun y hy => hall y (List.mem_cons_of_mem _ hy))

theorem firstMax_three (fitf : Cand → ℚ) (x : Cand) : firstMax fitf [x, x, x] = x := by
  rw [firstMax]
  refine firstMaxAux_const fitf x [x, x] ?_
  intro y hy
  simp only [List.mem_cons, List.not_mem_nil, or_false] at hy
  rcases hy with h | h <;> exact h

theorem selectLoop_const {fitf : Cand → ℚ} {x : Cand} {pop : List Cand}
    (hall : ∀ y ∈ pop, y = x) (h3 : 3 ≤ pop.length) :
    ∀ (k : Nat) (g : RGen), ∃ g2, selectLoop fitf pop k g = .ok (List.replicate k x, g2)
  | 0, g => ⟨g, rfl⟩
  | k + 1, g => by
    rw [selectLoop]
    obtain ⟨g1, hs⟩ := sample3_const hall h3 g
    rw [hs]
    dsimp only
    obtain ⟨g2, hr⟩ := selectLoop_const hall h3 k g1
    rw [hr]
    rw [firstMax_three]
    exact ⟨g2, rfl⟩

theorem crossoverGA_one (g : RGen) :
    ∃ g2, crossoverGA 1 1 2 (List.replicate 2 (0, 0)) (List.replicate 2 (0, 0)) g
      = .ok (List.replicate 2 (0, 0), g2) := by
  unfold crossoverGA
  have hcut : randCut 2 g = .ok (1, (rnext g).2) := by
    unfold randCut
    rw [if_neg (by omega)]
    dsimp only
    rw [Nat.mod_one]
  rw [hcut]
  dsimp only
  rw [show List.take 1 (List.replicate 2 ((0 : Nat), (0 : Nat))) ++
      List.drop 1 (List.replicate 2 ((0 : Nat), (0 : Nat))) = [(0, 0), (0, 0)] from rfl]
  rw [dedupeScan]
  rw [if_neg (by simp)]
  rw [dedupeScan]
  rw [if_pos (by simp)]
  obtain ⟨gq, hq⟩ := randomCell_one (rnext g).2
  rw [hq]
  dsimp only
  rw [dedupeScan]
  rw [show ([] ++ [((0 : Nat), (0 : Nat))] ++ [(0, 0)] : List Pos) = [(0, 0), (0, 0)] from rfl]
  dsimp only
  rw [padLoop_of_le (by simp)]
  exact ⟨gq, rfl⟩

theorem breedLoop_one : ∀ (count i : Nat) (g : RGen), i + 2 * count ≤ 4 →
    ∃ g2, breedLoop 1 1 2 0 (List.replicate 3 (List.replicate 2 (0, 0))) 3 count i g
      = .ok (List.replicate (2 * count) (List.replicate 2 (0, 0)), g2)
  | 0, i, g, _ => ⟨g, rfl⟩
  | count + 1, i, g, hi => by
    rw [breedLoop]
    have hp1 : (List.replicate 3 (List.replicate 2 ((0 : Nat), (0 : Nat)))).getD i []
        = List.replicate 2 (0, 0) :=
      List.eq_of_mem_replicate (getD_mem (by simp; omega))
    have hp2 : (List.replicate 3 (List.replicate 2 ((0 : Nat), (0 : Nat)))).getD
        ((i + 1) % 3) [] = List.replicate 2 (0, 0) :=
      List.eq_of_mem_replicate (getD_mem (by simp [Nat.mod_lt]))
    rw [hp1, hp2]
    obtain ⟨g1, hx1⟩ := crossoverGA_one g
    rw [hx1]
    dsimp only
    obtain ⟨g2, hx2⟩ := crossoverGA_one g1
    rw [hx2]
    dsimp only
    obtain ⟨g3, hm1⟩ := @mutateGA_zero 1 1 2 (List.replicate 2 (0, 0)) g2
      (by simp)
    rw [hm1]
    dsimp only
    obtain ⟨g4, hm2⟩ := @mutateGA_zero 1 1 2 (List.replicate 2 (0, 0)) g3
      (by simp)
    rw [hm2]
    dsimp only
    obtain ⟨g5, hrec⟩ := breedLoop_one count (i + 2) g4 (by omega)
    rw [hrec]
    dsimp only
    exact ⟨g5, rfl⟩

theorem updateBest_const (x : Cand) (f : ℚ) :
    ∀ (k : Nat), updateBest (List.replicate k (x, f)) (some x) (some f) = (some x, some f)
  | 0 => rfl
  | k + 1 => by
    rw [List.replicate_succ, updateBest.eq_def]
    dsimp only
    rw [ite_self]
    exact updateBest_const x f k

theorem updateBest_const_none (x : Cand) (f : ℚ) {k : Nat} (hk : k ≠ 0) :
    updateBest (List.replicate k (x, f)) none none = (some x, some f) := by
  obtain ⟨j, rfl⟩ := Nat.exists_eq_succ_of_ne_zero hk
  rw [List.replicate_succ, updateBest.eq_def]
  dsimp only
  rw [if_pos rfl]
  exact updateBest_const x f j

theorem genLoop_one (fitf : Cand → ℚ) (g : RGen) :
    ∃ g2, genLoop 1 1 2 3 0 fitf 1 (List.replicate 3 (List.replicate 2 (0, 0))) none none g
      = .ok (some (List.replicate 2 (0, 0)), g2) := by
  rw [genLoop]
  obtain ⟨g1, hsel⟩ := @selectLoop_const fitf
    (List.replicate 2 ((0 : Nat), (0 : Nat)))
    (List.replicate 3 (List.replicate 2 (0, 0)))
    (fun y hy => List.eq_of_mem_replicate hy) (by simp) 3 g
  rw [hsel]
  dsimp only
  have hc : (3 + 1) / 2 = 2 := rfl
  rw [hc]
  obtain ⟨g2, hbreed⟩ := breedLoop_one 2 0 g1 (by omega)
  rw [hbreed]
  dsimp only
  rw [genLoop]
  rw [List.map_replicate, List.zip_replicate, min_self]
  rw [updateBest_const_none _ _ (show (3 : Nat) ≠ 0 by omega)]
  exact ⟨g2, rfl⟩

theorem geneticPlace_one (msqrt : Int → ℚ) (rho alphaW betaW : ℚ) (fireMap : Grid)
    (g : RGen) :
    geneticPlace msqrt 2 rho 3 1 0 alphaW betaW fireMap grid11 g
      = .ok (some [(0, 0), (0, 0)]) := by
  unfold geneticPlace
  dsimp only
  rw [show grid11.rows = 1 from rfl, show grid11.cols = 1 from rfl]
  obtain ⟨g1, hi⟩ := initPop_one 2 3 g
  rw [hi]
  dsimp only
  obtain ⟨g2, hg⟩ := genLoop_one (fitnessGA msqrt alphaW betaW rho fireMap grid11) g1
  rw [hg]
  rfl

/-! ### Claim theorems -/

/-- C1: the specification claims that for t ≥ 1 the `bp_field` passed to the
strategy is the BP-history snapshot taken at the end of step t-1.  The code
passes `bp_maps[t-1]`, whose entry 0 is the initial seed and whose entry k
(k ≥ 1) is the field at the end of step k-1 — so step 1 receives the initial
seed, not the end-of-step-0 snapshot.  Concretely: a 2-step run on a 1×1
grid seeded with 5, where the step-0 sensor confirms fire and drives the
field to 1; the strategy at step 1 is shown the value 5, while the
end-of-step-0 history entry holds 1. -/
theorem c1_bp_snapshot_lag :
    ((runSimulation 1 1 1 [fireHot, fireCold] placeOnce 2 bpSeed).1.bpUsedHist.getD 1
      defaultGrid).val 0 0 = 5 ∧
    ((runSimulation 1 1 1 [fireHot, fireCold] placeOnce 2 bpSeed).1.bpMaps.getD 1
      defaultGrid).val 0 0 = 1 ∧
    (5 : ℚ) ≠ 1 :=
  ⟨by decide, by decide, by decide⟩

/-- C2 counterexample: with population_size = 1, num_generations = 1 and
mutation_rate = 0, the genetic place operation raises (`random.sample` of 3
from a population of 1) instead of returning a placement of distinct
positions. -/
theorem c2_counterexample :
    (geneticPlace (fun _ => 0) 1 1 1 1 0 0 0 grid22 grid22 constGen).isOk = false := by
  decide

/-- C2 (amended): for every grid, sensor count, radius, weights, penalty
square-root function and random stream, the genetic place operation with
population_size = 1, num_generations = 1 and mutation_rate = 0 raises an
exception — tournament selection samples 3 candidates without replacement
from a population of 1 — rather than returning a placement. -/
theorem c2_amended (msqrt : Int → ℚ) (ns : Nat) (rho alphaW betaW : ℚ)
    (fireMap bpMap : Grid) (g : RGen) :
    (geneticPlace msqrt ns rho 1 1 0 alphaW betaW fireMap bpMap g).isOk = false :=
  geneticPlace_pop1_err msqrt ns rho alphaW betaW fireMap bpMap g

/-- C3 counterexample: two requested steps with grid 0 missing on disk.
The loader skips the missing file, so the run does not fail before the
loop: step 0 executes against the *shifted* grid (the probe strategy
deploys a sensor only when it is shown fire value 1, which only the step-1
grid carries — and it does deploy), and the index error surfaces only at
step 1. -/
theorem c3_counterexample :
    (runSimulation 1 1 1 (loadFireMaps (fun t => decide (t ≠ 0)) gridsAt 2) placeProbe 2
      bpSeed).2.isSome = true ∧
    (runSimulation 1 1 1 (loadFireMaps (fun t => decide (t ≠ 0)) gridsAt 2) placeProbe 2
      bpSeed).1.sensorHist = [[(0, 0)]] ∧
    (runSimulation 1 1 1 (loadFireMaps (fun t => decide (t ≠ 0)) gridsAt 2) placeProbe 2
      bpSeed).1.coverageHist.length = 1 :=
  ⟨by decide, by decide, by decide⟩

/-- C3 (amended): when the loader finds fewer grids than num_time_steps
(missing files are skipped with a warning and later grids shift down), the
simulation does not fail before the run: it executes one full step per
loaded grid — against the shifted sequence — and only then stops with a
list-index error. -/
theorem c3_amended (threshold rho d : ℚ) (present : Nat → Bool) (gridAt2 : Nat → Grid)
    (place : Strategy) (n : Nat) (bp0 : Grid)
    (h : (loadFireMaps present gridAt2 n).length < n) :
    (runSimulation threshold rho d (loadFireMaps present gridAt2 n) place n bp0).2
      = some "list index out of range" ∧
    (runSimulation threshold rho d (loadFireMaps present gridAt2 n) place n
      bp0).1.sensorHist.length = (loadFireMaps present gridAt2 n).length ∧
    (runSimulation threshold rho d (loadFireMaps present gridAt2 n) place n
      bp0).1.coverageHist.length = (loadFireMaps present gridAt2 n).length := by
  unfold runSimulation
  obtain ⟨h1, h2, h3⟩ := runAux_short threshold rho d (loadFireMaps present gridAt2 n)
    place n 0 (initSimState bp0) (by omega) (by omega)
  refine ⟨h1, ?_, ?_⟩
  · rw [h2]
    simp [initSimState]
  · rw [h3]
    simp [initSimState]

/-- C3 witness: the amended claim applied to the concrete missing-file
scenario of the counterexample (one loaded grid out of two requested). -/
theorem c3_witness :
    (runSimulation 1 1 1 (loadFireMaps (fun t => decide (t ≠ 0)) gridsAt 2) placeProbe 2
      grid11).2 = some "list index out of range" ∧
    (runSimulation 1 1 1 (loadFireMaps (fun t => decide (t ≠ 0)) gridsAt 2) placeProbe 2
      grid11).1.sensorHist.length = (loadFireMaps (fun t => decide (t ≠ 0)) gridsAt 2).length ∧
    (runSimulation 1 1 1 (loadFireMaps (fun t => decide (t ≠ 0)) gridsAt 2) placeProbe 2
      grid11).1.coverageHist.length = (loadFireMaps (fun t => decide (t ≠ 0)) gridsAt 2).length :=
  c3_amended 1 1 1 (fun t => decide (t ≠ 0)) gridsAt placeProbe 2 grid11 (by decide)

/-- C4 counterexample: dispatch accepts `num_sensors = 0` with a negative
radius without error, and the genetic strategy with zero generations
silently completes returning None — the claimed fatal configuration errors
do not occur. -/
theorem c4_counterexample :
    selectAlgorithm "greedy" 0 (-1) 0 0 0 0 0 0 0 0 = .ok (.greedy 0 (-1)) ∧
    geneticPlace (fun _ => 0) 2 1 3 0 0 0 0 grid11 grid11 constGen = .ok none :=
  ⟨by decide, by decide⟩

/-- C4 (amended): only an unknown strategy name is a fatal error, raised at
dispatch; a non-positive sensor count or radius passes dispatch without any
validation, and the genetic strategy run with zero generations (on a
non-empty grid) or with a zero population completes normally, returning
None instead of failing. -/
theorem c4_amended :
    (∀ (choice : String) (ns : Nat) (rho epsilon aRL bRL : ℚ) (popSize gens : Nat)
      (mRate aGA bGA : ℚ),
      strLower choice ≠ "greedy" → strLower choice ≠ "reinforcementlearning" →
      strLower choice ≠ "genetic" →
      selectAlgorithm choice ns rho epsilon aRL bRL popSize gens mRate aGA bGA
        = .error ("Unknown algorithm specified: " ++ choice)) ∧
    (∀ (ns : Nat) (rho epsilon aRL bRL : ℚ) (popSize gens : Nat) (mRate aGA bGA : ℚ),
      selectAlgorithm "greedy" ns rho epsilon aRL bRL popSize gens mRate aGA bGA
        = .ok (.greedy ns rho)) ∧
    (∀ (msqrt : Int → ℚ) (ns : Nat) (rho : ℚ) (popSize : Nat) (mRate aGA bGA : ℚ)
      (fireMap bpMap : Grid) (g : RGen), bpMap.rows ≠ 0 → bpMap.cols ≠ 0 →
      geneticPlace msqrt ns rho popSize 0 mRate aGA bGA fireMap bpMap g = .ok none) ∧
    (∀ (msqrt : Int → ℚ) (ns : Nat) (rho : ℚ) (gens : Nat) (mRate aGA bGA : ℚ)
      (fireMap bpMap : Grid) (g : RGen),
      geneticPlace msqrt ns rho 0 gens mRate aGA bGA fireMap bpMap g = .ok none) := by
  refine ⟨?_, ?_, ?_, ?_⟩
  · intro choice ns rho epsilon aRL bRL popSize gens mRate aGA bGA h1 h2 h3
    unfold selectAlgorithm
    rw [if_neg h1, if_neg h2, if_neg h3]
  · intro ns rho epsilon aRL bRL popSize gens mRate aGA bGA
    unfold selectAlgorithm
    rw [if_pos (by decide)]
  · intro msqrt ns rho popSize mRate aGA bGA fireMap bpMap g h1 h2
    exact geneticPlace_zero_gens msqrt ns rho popSize mRate aGA bGA fireMap bpMap h1 h2 g
  · intro msqrt ns rho gens mRate aGA bGA fireMap bpMap g
    exact geneticPlace_zero_pop msqrt ns rho gens mRate aGA bGA fireMap bpMap g

/-- C4 witness: the amended claim applied concretely — the unknown name
"quantum" is rejected with the ValueError message. -/
theorem c4_witness :
    selectAlgorithm "quantum" 3 1 0 0 0 0 0 0 0 0
      = .error ("Unknown algorithm specified: " ++ "quantum") :=
  c4_amended.1 "quantum" 3 1 0 0 0 0 0 0 0 0 (by decide) (by decide) (by decide)

/-- C5 counterexample: on a 1×1 grid with two sensors, the genetic strategy
deterministically (for every random stream; here the all-zeros stream and a
concrete penalty square root) returns the placement [(0,0), (0,0)], which
contains the same position twice. -/
theorem c5_counterexample :
    geneticPlace (fun _ => 0) 2 1 3 1 0 0 0 fireCold grid11 constGen
      = .ok (some [(0, 0), (0, 0)]) ∧
    ¬ ([((0 : Nat), (0 : Nat)), (0, 0)] : List Pos).Nodup :=
  ⟨geneticPlace_one (fun _ => 0) 1 0 0 fireCold constGen, by decide⟩

/-- C5 (amended): the greedy and epsilon-greedy placements contain pairwise
distinct positions for every input with a positive separation radius; the
genetic strategy does not guarantee distinctness (see the counterexample:
neither its random initial candidates nor its crossover repair rule out
duplicates). -/
theorem c5_amended (ns : Nat) (rho : ℚ) (h : 0 < rho) (fireMap bpMap : Grid)
    (prev : Option (List Pos)) (epsilon alphaW betaW : ℚ) (g : RGen) :
    (greedyPlace ns rho fireMap bpMap prev).Nodup ∧
    (epsGreedyPlace ns rho epsilon alphaW betaW fireMap bpMap prev g).Nodup := by
  constructor
  · refine (greedyPlace_pairwise ns rho fireMap bpMap prev).imp ?_
    intro a b hab heq
    subst heq
    rw [sqrtGe_self_false h] at hab
    exact Bool.noConfusion hab
  · refine (epsGreedyPlace_pairwise ns rho epsilon alphaW betaW fireMap bpMap prev g).imp ?_
    intro a b hab heq
    subst heq
    rw [sqrtGe_self_false h] at hab
    exact Bool.noConfusion hab

/-- C5 witness: distinctness of the greedy and epsilon-greedy outputs at a
concrete input. -/
theorem c5_witness :
    (greedyPlace 2 1 fireHot grid22 none).Nodup ∧
    (epsGreedyPlace 2 1 0 0 0 fireHot grid22 none constGen).Nodup :=
  c5_amended 2 1 one_pos fireHot grid22 none 0 0 0 constGen

/-- C6: the greedy and epsilon-greedy placements are pairwise separated by
at least sensor_radius in Euclidean distance — stated for a nonnegative
radius as rho² ≤ squared distance for every ordered pair of returned
positions. -/
theorem c6_separation (ns : Nat) (rho : ℚ) (h : 0 ≤ rho) (fireMap bpMap : Grid)
    (prev : Option (List Pos)) (epsilon alphaW betaW : ℚ) (g : RGen) :
    (greedyPlace ns rho fireMap bpMap prev).Pairwise
      (fun p q => rho ^ 2 ≤ ((dsqZ p q : Int) : ℚ)) ∧
    (epsGreedyPlace ns rho epsilon alphaW betaW fireMap bpMap prev g).Pairwise
      (fun p q => rho ^ 2 ≤ ((dsqZ p q : Int) : ℚ)) := by
  constructor
  · refine (greedyPlace_pairwise ns rho fireMap bpMap prev).imp ?_
    intro a b hab
    exact (sqrtGe_true_iff (dsqZ_nonneg a b) h).mp hab
  · refine (epsGreedyPlace_pairwise ns rho epsilon alphaW betaW fireMap bpMap prev g).imp ?_
    intro a b hab
    exact (sqrtGe_true_iff (dsqZ_nonneg a b) h).mp hab

/-- C6 witness: separation of the greedy and epsilon-greedy outputs at a
concrete input. -/
theorem c6_witness :
    (greedyPlace 2 1 fireHot grid22 none).Pairwise
      (fun p q => (1 : ℚ) ^ 2 ≤ ((dsqZ p q : Int) : ℚ)) ∧
    (epsGreedyPlace 2 1 0 0 0 fireHot grid22 none constGen).Pairwise
      (fun p q => (1 : ℚ) ^ 2 ≤ ((dsqZ p q : Int) : ℚ)) :=
  c6_separation 2 1 zero_le_one fireHot grid22 none 0 0 0 constGen

/-- C7: every strategy returns at most num_sensors positions, all of them
inside the grid (the shape of the BP map, from which all three strategies
draw their candidates); for the genetic strategy this holds of any placement
it actually returns. -/
theorem c7_bounds (ns : Nat) (rho : ℚ) (fireMap bpMap : Grid) (prev : Option (List Pos))
    (epsilon alphaW betaW : ℚ) (g : RGen) :
    ((greedyPlace ns rho fireMap bpMap prev).length ≤ ns ∧
      ∀ p ∈ greedyPlace ns rho fireMap bpMap prev,
        p.1 < bpMap.rows ∧ p.2 < bpMap.cols) ∧
    ((epsGreedyPlace ns rho epsilon alphaW betaW fireMap bpMap prev g).length ≤ ns ∧
      ∀ p ∈ epsGreedyPlace ns rho epsilon alphaW betaW fireMap bpMap prev g,
        p.1 < bpMap.rows ∧ p.2 < bpMap.cols) ∧
    (∀ (msqrt : Int → ℚ) (popSize gens : Nat) (mRate : ℚ) (c : Cand),
      geneticPlace msqrt ns rho popSize gens mRate alphaW betaW fireMap bpMap g
        = .ok (some c) →
      c.length ≤ ns ∧ ∀ p ∈ c, p.1 < bpMap.rows ∧ p.2 < bpMap.cols) := by
  refine ⟨⟨greedyPlace_length ns rho fireMap bpMap prev, ?_⟩,
    ⟨epsGreedyPlace_length ns rho epsilon alphaW betaW fireMap bpMap prev g, ?_⟩, ?_⟩
  · intro p hp
    exact greedyPlace_mem hp
  · intro p hp
    exact epsGreedyPlace_mem hp
  · intro msqrt popSize gens mRate c hc
    obtain ⟨hlen, hmem⟩ := geneticPlace_ok_candOk hc
    exact ⟨le_of_eq hlen, hmem⟩

/-- C7 witness: the bounds applied to the concrete genetic run of the 1×1
scenario (where the strategy returns a placement). -/
theorem c7_witness :
    ([(0, 0), (0, 0)] : List Pos).length ≤ 2 ∧
    ∀ p ∈ ([(0, 0), (0, 0)] : List Pos), p.1 < grid11.rows ∧ p.2 < grid11.cols :=
  (c7_bounds 2 1 fireCold grid11 none 0 0 0 constGen).2.2 (fun _ => 0) 3 1 0
    [(0, 0), (0, 0)] (geneticPlace_one (fun _ => 0) 1 0 0 fireCold constGen)

/-- C8: the per-step BP field update.  With an empty placement the post
grid equals the pre grid at t = 0 and d times the pre grid at t > 0; and
every grid cell within Euclidean distance sensor_radius (inclusive, the
`sqrtLe` encoding) of a sensor whose fire value reaches the detection
threshold reads exactly 1 afterwards, decay notwithstanding. -/
theorem c8_bp_update (threshold rho d : ℚ) (t : Nat) (fireMap : Grid) (ps : List Pos)
    (g : Grid) :
    (∀ r c, (bpUpdate threshold rho d t fireMap [] g).val r c
      = if t = 0 then g.val r c else d * g.val r c) ∧
    (∀ p ∈ ps, threshold ≤ fireMap.val p.1 p.2 →
      ∀ r c, r < g.rows → c < g.cols → sqrtLe (dsqZ (r, c) p) rho = true →
      (bpUpdate threshold rho d t fireMap ps g).val r c = 1) := by
  constructor
  · intro r c
    exact bpUpdate_empty threshold rho d t fireMap g r c
  · intro p hp hfire r c hr hc hd
    obtain ⟨hrho, hdist⟩ := sqrtLe_true_iff.mp hd
    exact bpUpdate_sets hp hfire hrho hr hc hdist

/-- C8 witness: a sensor on the burning cell of a 1×1 grid drives the seeded
field to exactly 1. -/
theorem c8_witness : (bpUpdate 0 1 1 0 fireHot [(0, 0)] bpSeed).val 0 0 = 1 :=
  (c8_bp_update 0 1 1 0 fireHot [(0, 0)] bpSeed).2 (0, 0) (by decide) zero_le_one
    0 0 (by decide) (by decide) (by decide)

/-- C9: coverage always lies in [0,1]; it equals 1 exactly when no cell of
the fire field reaches the detection threshold, and otherwise equals the
number of burning cells within squared distance rho² of some sensor divided
by the number of burning cells. -/
theorem c9_coverage (threshold rho : ℚ) (fireMap : Grid) (ps : List Pos) :
    (0 ≤ computeCoverage threshold rho fireMap ps ∧
      computeCoverage threshold rho fireMap ps ≤ 1) ∧
    (burningCells threshold fireMap = [] → computeCoverage threshold rho fireMap ps = 1) ∧
    (burningCells threshold fireMap ≠ [] →
      computeCoverage threshold rho fireMap ps =
        (((burningCells threshold fireMap).countP
          (fun bc => ps.any (fun s => leSq (dsqZ bc s) rho)) : Nat) : ℚ) /
        (((burningCells threshold fireMap).length : Nat) : ℚ)) := by
  refine ⟨?_, ?_, ?_⟩
  · unfold computeCoverage
    by_cases he : (burningCells threshold fireMap).isEmpty = true
    · rw [if_pos he]
      norm_num
    · rw [if_neg he]
      have hne : burningCells threshold fireMap ≠ [] := by
        intro hnil
        rw [hnil] at he
        exact he rfl
      have hpos : 0 < ((burningCells threshold fireMap).length : ℚ) := by
        have := List.length_pos.mpr hne
        exact_mod_cast this
      constructor
      · exact div_nonneg (by positivity) (le_of_lt hpos)
      · rw [div_le_one hpos]
        have := List.countP_le_length
          (fun bc => ps.any (fun s => leSq (dsqZ bc s) rho))
          (l := burningCells threshold fireMap)
        exact_mod_cast this
  · intro hnil
    unfold computeCoverage
    rw [if_pos (List.isEmpty_iff.mpr hnil)]
  · intro hne
    unfold computeCoverage
    rw [if_neg (by rw [List.isEmpty_iff]; exact hne)]

/-- C9 witness: on the 1×1 burning grid with no sensors, coverage is the
ratio 0/1 given by the formula. -/
theorem c9_witness :
    computeCoverage 1 1 fireHot [] =
      (((burningCells 1 fireHot).countP
        (fun bc => ([] : List Pos).any (fun s => leSq (dsqZ bc s) 1)) : Nat) : ℚ) /
      (((burningCells 1 fireHot).length : Nat) : ℚ) :=
  (c9_coverage 1 1 fireHot []).2.2 (by decide)

/-- C10 counterexample: with population_size = 0 and one generation the
genetic place operation completes without raising (it returns None), so
completing does not require population_size ≥ 3. -/
theorem c10_counterexample :
    (geneticPlace (fun _ => 0) 5 1 0 1 0 0 0 grid11 grid11 constGen).isOk = true ∧
    ¬ (3 ≤ 0 ∧ 2 ≤ 5) :=
  ⟨by decide, by decide⟩

/-- C10 (amended): with at least one generation, the genetic place operation
completes without raising only if the population is empty (the selection and
breeding loops then never run and None is returned) or the population has at
least 3 members and there are at least 2 sensors. -/
theorem c10_amended (msqrt : Int → ℚ) (ns : Nat) (rho : ℚ) (popSize gens : Nat)
    (mRate alphaW betaW : ℚ) (fireMap bpMap : Grid) (g : RGen) (hgens : 1 ≤ gens)
    (h : (geneticPlace msqrt ns rho popSize gens mRate alphaW betaW fireMap bpMap g).isOk
      = true) :
    popSize = 0 ∨ (3 ≤ popSize ∧ 2 ≤ ns) :=
  geneticPlace_isOk_necessary hgens h

/-- C10 witness: the amended claim applied to the successful concrete run
with population 3 and 2 sensors. -/
theorem c10_witness : (3 : Nat) = 0 ∨ (3 ≤ 3 ∧ 2 ≤ 2) :=
  c10_amended (fun _ => 0) 2 1 3 1 0 0 0 fireCold grid11 constGen (by decide)
    (by rw [geneticPlace_one (fun _ => 0) 1 0 0 fireCold constGen]; rfl)
